import Mathlib

/-! Collision-avoidance controller: embedding of `main.cpp` and `motorcontrol.cpp`.

The four FreeRTOS tasks communicate only through five single-slot shares.  One
pass through the body of each task's `for (;;)` loop is embedded as a pure
function of the task's private variables and of the values it reads from the
shares; what the pass does to the outside world (share writes, `delay`,
`runMotor`) is returned as data, in program order.

Numbers:
* `float` values are embedded as `FloatVal`: an exact rational for every finite
  value, plus the two infinities and NaN.  Every finite `float` is a rational,
  so a statement about all `FloatVal` covers every value the hardware can hold.
* `float` and `double` arithmetic is IEEE 754 binary32 and binary64: `R32` and
  `R64` round an exact result to the nearest value of the format, ties to
  even, with gradual underflow and overflow to infinity.  The motor tasks
  (`task_RS_Motor1_tick_f32`, `task_RS_Motor2_tick_f32`) and the sensor task
  (`task_sensor_scan_tick`) are embedded with this arithmetic.  C++ allows a
  product and a following sum to be contracted into one fused multiply-add;
  the parameter `Contraction` of the motor tasks covers the three ways of
  evaluating `motor_speed * sim_A + duty_cycle_var * sim_B`, and a theorem
  about these tasks holds for each of them unless it names the ones it is
  about.
* `task_RS_Motor1_tick` and `task_RS_Motor2_tick` are the same passes with the
  smoothing expression evaluated in exact rational arithmetic
  (`sim_A = 9/10`), that is, without the rounding of `float`.  They are used
  for statements about the branch taken, the zero-command branch and the
  direction handed to `runMotor`, which do not depend on the rounding; the
  two kinds of pass agree there (`motor_tick_f32_agrees`), and the duties
  evaluated with the exact passes (925, 25 and 20) are also the duties of the
  `float` passes (`motor_tick_f32_examples`).
* `int` and `int32_t` are embedded as `Int`; the only values ever stored are
  `0`, `1`, `200` and `255`, so wrap-around plays no role.
* A conversion from a floating value to an integer type (`toUInt32`, `toInt32`)
  returns `none` where C++ leaves the result undefined.
* `uint32_t` pin numbers and duty values are embedded as `Nat`.
-/

namespace CollisionCar

/-! ## Values of type `float` -/

/-- A value of C++ type `float`: a finite value (kept as the rational it
denotes), an infinity, or NaN. -/
inductive FloatVal where
  | finite (q : ℚ)
  | posInf
  | negInf
  | nan
  deriving DecidableEq

namespace FloatVal

/-- The C++ comparison `x > k` of a `float` with an integer literal (the literal
converts to `float` exactly for the literals used, `40` and `20`).  Any
comparison with NaN is false. -/
def gtInt : FloatVal → Int → Bool
  | finite q, k => decide ((k : ℚ) < q)
  | posInf, _ => true
  | negInf, _ => false
  | nan, _ => false

/-- The C++ comparison `x <= k` of a `float` with an integer literal.  Any
comparison with NaN is false. -/
def leInt : FloatVal → Int → Bool
  | finite q, k => decide (q ≤ (k : ℚ))
  | posInf, _ => false
  | negInf, _ => true
  | nan, _ => false

end FloatVal

/-! ## The shares -/

/-- The five shares declared at the top of `main.cpp`, each holding the value
most recently put into it. -/
structure Shares where
  US_distance : FloatVal
  IR_distance : FloatVal
  M1_duty_cycle : Int
  M2_duty_cycle : Int
  turn : Bool
  deriving DecidableEq

/-- What `task_process_sensor_data` does to the outside world, one constructor
per kind of statement with an effect in its loop body. -/
inductive Action where
  | M1_put (v : Int)
  | M2_put (v : Int)
  | turn_put (b : Bool)
  | delay (ms : Nat)
  deriving DecidableEq

/-- Effect of one action on the shares; `delay` changes no share. -/
def Action.apply (sh : Shares) : Action → Shares
  | .M1_put v => { sh with M1_duty_cycle := v }
  | .M2_put v => { sh with M2_duty_cycle := v }
  | .turn_put b => { sh with turn := b }
  | .delay _ => sh

/-- The shares after a sequence of actions, performed left to right. -/
def Shares.exec (sh : Shares) (acts : List Action) : Shares :=
  acts.foldl Action.apply sh

/-! ## `task_process_sensor_data` -/

/-- Value of `state` meaning the vehicle is running (`0 = running`). -/
abbrev RUNNING : Int := 0

/-- Value of `state` meaning the vehicle is stopped (`1 = stopped`). -/
abbrev STOPPED : Int := 1

/-- The local `int full_speed = 255`. -/
def full_speed : Int := 255

/-- The local `int partial_speed = 200`. -/
def partial_speed : Int := 200

/-- One pass through the loop body of `task_process_sensor_data` (lines 52-85):
from the value of the local `state` before the pass and the shares it reads,
the value of `state` after the pass and the actions performed, in order.
`if(state)` tests `state != 0`. -/
def task_process_sensor_data_tick (state : Int) (sh : Shares) : Int × List Action :=
  let us_distance := sh.US_distance
  let ir_distance := sh.IR_distance
  if us_distance.gtInt 40 then
    (0, [.M1_put full_speed, .M2_put full_speed, .turn_put false])
  else
    if ir_distance.gtInt 20 then
      (0, [.M1_put partial_speed, .M2_put partial_speed, .turn_put false])
    else
      if state ≠ 0 then
        (state, [.M1_put partial_speed, .M2_put partial_speed, .turn_put true])
      else
        (1, [.M1_put 0, .M2_put 0, .turn_put false, .delay 5000])

/-- The local `state` when the loop of `task_process_sensor_data` is entered.
The declaration `int state;` (line 48) has no initialiser, so the value is not
fixed by the program: it is whatever the task's stack holds, here `indet`. -/
def task_process_sensor_data_entry (indet : Int) : Int := indet

/-- One observed pass of the Decision Engine: `state` after the pass, the
actions of the pass, and the shares once those actions are done. -/
structure TickRecord where
  state : Int
  actions : List Action
  shares : Shares
  deriving DecidableEq

/-- Successive passes of `task_process_sensor_data`.  Between two passes the
sensor task may overwrite the two distance shares; the list gives, for each
pass, the pair `(US_distance, IR_distance)` the pass finds there. -/
def task_process_sensor_data_run (state : Int) (sh : Shares) :
    List (FloatVal × FloatVal) → List TickRecord
  | [] => []
  | (us, ir) :: rest =>
    let sh1 := { sh with US_distance := us, IR_distance := ir }
    let r := task_process_sensor_data_tick state sh1
    let sh2 := sh1.exec r.2
    ⟨r.1, r.2, sh2⟩ :: task_process_sensor_data_run r.1 sh2 rest

/-! ## The motor tasks, smoothing in exact arithmetic -/

/-- The local `float sim_A = 0.9`, as the exact rational `9/10`. -/
def sim_A : ℚ := 9 / 10

/-- The local `float sim_B = 1 - sim_A`, as the exact rational `1/10`. -/
def sim_B : ℚ := 1 - sim_A

/-- The conversion `(uint32_t) x` of a floating value: the fractional part is
discarded (truncation toward zero).  C++ defines the result only when the
truncated value fits the destination type, that is for `-1 < x < 2^32`;
`none` stands for the undefined case. -/
def toUInt32 (x : ℚ) : Option Nat :=
  if -1 < x ∧ x < 4294967296 then
    some (if 0 ≤ x then ⌊x⌋ else ⌈x⌉).toNat
  else
    none

/-- The arguments of one call `runMotor((uint32_t) motor_speed, clockwise)`. -/
structure RunMotorCall where
  duty_cycle : Option Nat
  clockwise : Bool
  deriving DecidableEq

/-- Result of one pass through the loop body of a motor task: the local
`motor_speed` after the pass and the `runMotor` calls made, in order. -/
structure MotorTick where
  motor_speed : ℚ
  calls : List RunMotorCall
  deriving DecidableEq

/-- One pass through the loop body of `task_RS_Motor1` (lines 166-180), the
smoothing expression evaluated without rounding.  The share `turn` is read
only in the `else` branch. -/
def task_RS_Motor1_tick (motor_speed : ℚ) (sh : Shares) : MotorTick :=
  let duty_cycle_var := sh.M1_duty_cycle
  let (motor_speed, turn_stored) :=
    if duty_cycle_var = 0 then
      ((0 : ℚ), true)
    else
      (motor_speed * sim_A + (duty_cycle_var : ℚ) * sim_B, sh.turn)
  ⟨motor_speed, [⟨toUInt32 motor_speed, turn_stored⟩]⟩

/-- One pass through the loop body of `task_RS_Motor2` (lines 215-227), the
smoothing expression evaluated without rounding. -/
def task_RS_Motor2_tick (motor_speed : ℚ) (sh : Shares) : MotorTick :=
  let duty_cycle_var := sh.M2_duty_cycle
  let motor_speed :=
    if duty_cycle_var = 0 then
      (0 : ℚ)
    else
      motor_speed * sim_A + (duty_cycle_var : ℚ) * sim_B
  ⟨motor_speed, [⟨toUInt32 motor_speed, true⟩]⟩

/-- The local `motor_speed` when the loop of `task_RS_Motor1` is entered.  The
declaration `float motor_speed;` (line 157) has no initialiser, so the value is
whatever the task's stack holds, here `indet`. -/
def task_RS_Motor1_entry (indet : ℚ) : ℚ := indet

/-- The local `motor_speed` when the loop of `task_RS_Motor2` is entered; the
declaration on line 207 has no initialiser either. -/
def task_RS_Motor2_entry (indet : ℚ) : ℚ := indet

/-- Successive passes of `task_RS_Motor2`; the list gives the shares as each
pass finds them.  Returns the final `motor_speed` and all `runMotor` calls. -/
def task_RS_Motor2_run (motor_speed : ℚ) : List Shares → MotorTick
  | [] => ⟨motor_speed, []⟩
  | sh :: rest =>
    let t := task_RS_Motor2_tick motor_speed sh
    let r := task_RS_Motor2_run t.motor_speed rest
    ⟨r.motor_speed, t.calls ++ r.calls⟩

/-- Truncation toward zero of a rational to an integer: the integer obtained by
discarding the fractional part. -/
def truncToZero (x : ℚ) : Int :=
  if 0 ≤ x then ⌊x⌋ else ⌈x⌉

/-! ## `MotorControl` -/

/-- The four data members of class `MotorControl` (`motorcontrol.h`): the pin
numbers saved by the constructor. -/
structure MotorControl where
  EN_stored : Nat
  IN_A_stored : Nat
  IN_B_stored : Nat
  PWM_stored : Nat
  deriving DecidableEq

/-- A pin output made by `runMotor`: `digitalWrite (pin, HIGH)` is
`digitalWrite pin true`, `digitalWrite (pin, LOW)` is `digitalWrite pin false`. -/
inductive PinWrite where
  | digitalWrite (pin : Nat) (high : Bool)
  | analogWrite (pin : Nat) (value : Nat)
  deriving DecidableEq

/-- The method `MotorControl::runMotor` (`motorcontrol.cpp` lines 38-62): the
object after the call (no member is assigned) and the pin outputs, in order. -/
def MotorControl.runMotor (m : MotorControl) (duty_cycle : Nat) (clockwise : Bool) :
    MotorControl × List PinWrite :=
  let en := [PinWrite.digitalWrite m.EN_stored true]
  let dir :=
    if duty_cycle = 0 then
      [PinWrite.digitalWrite m.IN_A_stored true, PinWrite.digitalWrite m.IN_B_stored true]
    else
      if clockwise then
        [PinWrite.digitalWrite m.IN_A_stored true, PinWrite.digitalWrite m.IN_B_stored false]
      else
        [PinWrite.digitalWrite m.IN_A_stored false, PinWrite.digitalWrite m.IN_B_stored true]
  (m, en ++ dir ++ [PinWrite.analogWrite m.PWM_stored duty_cycle])

/-- The pin outputs of one `runMotor` call made by a motor task on the motor
object `m`; `none` when the duty argument of the call has no defined value. -/
def RunMotorCall.exec (m : MotorControl) (c : RunMotorCall) : Option (List PinWrite) :=
  c.duty_cycle.map (fun d => (m.runMotor d c.clockwise).2)

/-! ## Binary floating-point arithmetic

`float` is IEEE 754 binary32 and `double` is binary64 on the target.  Every
arithmetic operation and every conversion returns the exact result rounded to
the nearest value of the format, ties to the value with an even mantissa.  The
sign of a zero is not kept: the program never divides by a value that can be
zero, and comparison and conversion to an integer treat both zeros alike. -/

/-- Binary search for the position of the leading bit: `log2Aux shifts v b`
adds to `b` the position of the leading bit of `v`, trying the shifts in
order. -/
def log2Aux : List Nat → Nat → Nat → Nat
  | [], _, b => b
  | i :: is, v, b => if 2 ^ i ≤ v then log2Aux is (v / 2 ^ i) (b + i) else log2Aux is v b

/-- Shifts for numbers below `2 ^ 64`. -/
def log2Shifts64 : List Nat := [32, 16, 8, 4, 2, 1]

/-- Shifts for numbers below `2 ^ 8192`. -/
def log2Shifts : List Nat := [4096, 2048, 1024, 512, 256, 128, 64, 32, 16, 8, 4, 2, 1]

/-- Position of the leading bit of `n`, that is `⌊log₂ n⌋` for `n > 0`. -/
def log2n (n : Nat) : Nat :=
  if n < 2 ^ 64 then log2Aux log2Shifts64 n 0
  else if n < 2 ^ 8192 then log2Aux log2Shifts n 0
  else Nat.log 2 n

/-- The binary exponent of the positive fraction `a / b`: the integer `e` with
`2 ^ e ≤ a / b < 2 ^ (e + 1)`. -/
def expoFrac (a b : Nat) : Int :=
  let d : Int := (log2n a : Int) - (log2n b : Int)
  if b * 2 ^ d.toNat ≤ a * 2 ^ (-d).toNat then d else d - 1

/-- The integer nearest to `P / Q` (for `Q > 0`); of two equally near integers
the even one. -/
def roundHalfEven (P : Int) (Q : Nat) : Int :=
  let n := P / (Q : Int)
  let r := P % (Q : Int)
  if 2 * r < Q then n
  else if (Q : Int) < 2 * r then n + 1
  else if n % 2 = 0 then n else n + 1

/-- Exponent of the unit in the last place used to round `x ≠ 0` to precision
`p` when the least exponent of a normal number is `emin`: the binary exponent
of `x`, but not less than `emin` (subnormal range), minus `p - 1`. -/
def quantumExp (p : Nat) (emin : Int) (x : ℚ) : Int :=
  max (expoFrac x.num.natAbs x.den) emin - ((p : Int) - 1)

/-- Round to nearest, ties to even, with precision `p` and least normal
exponent `emin`, the exponent being unbounded above: the multiple of
`2 ^ quantumExp p emin x` nearest to `x`. -/
def roundTo (p : Nat) (emin : Int) (x : ℚ) : ℚ :=
  if x.num = 0 then 0
  else
    let k : Int := quantumExp p emin x
    let n := roundHalfEven (x.num * 2 ^ (-k).toNat) (x.den * 2 ^ k.toNat)
    if 0 ≤ k then ((n * 2 ^ k.toNat : Int) : ℚ) else mkRat n (2 ^ (-k).toNat)

/-- Rounding of an exact result to a binary format with greatest exponent
`emax`: a rounded value of magnitude `2 ^ (emax + 1)` or more overflows to the
infinity of the same sign. -/
def roundBin (p : Nat) (emin emax : Int) (x : ℚ) : FloatVal :=
  let y := roundTo p emin x
  if ((2 ^ (emax + 1).toNat : Nat) : ℚ) ≤ |y| then
    (if 0 < x then .posInf else .negInf)
  else
    .finite y

/-- Rounding to `float` (binary32: 24-bit mantissa, exponents -126..127). -/
def R32 (x : ℚ) : FloatVal := roundBin 24 (-126) 127 x

/-- Rounding to `double` (binary64: 53-bit mantissa, exponents -1022..1023). -/
def R64 (x : ℚ) : FloatVal := roundBin 53 (-1022) 1023 x

namespace FloatVal

/-- Negation. -/
def neg : FloatVal → FloatVal
  | finite q => finite (-q)
  | posInf => negInf
  | negInf => posInf
  | nan => nan

/-- The exact sum of two values; `∞ + (-∞)` is invalid and gives NaN. -/
def addExact : FloatVal → FloatVal → FloatVal
  | nan, _ => nan
  | _, nan => nan
  | finite a, finite b => finite (a + b)
  | finite _, posInf => posInf
  | finite _, negInf => negInf
  | posInf, finite _ => posInf
  | negInf, finite _ => negInf
  | posInf, posInf => posInf
  | negInf, negInf => negInf
  | posInf, negInf => nan
  | negInf, posInf => nan

/-- The exact product of two values; `0 * ∞` is invalid and gives NaN. -/
def mulExact : FloatVal → FloatVal → FloatVal
  | nan, _ => nan
  | _, nan => nan
  | finite a, finite b => finite (a * b)
  | finite a, posInf => if a = 0 then nan else if 0 < a then posInf else negInf
  | finite a, negInf => if a = 0 then nan else if 0 < a then negInf else posInf
  | posInf, finite b => if b = 0 then nan else if 0 < b then posInf else negInf
  | negInf, finite b => if b = 0 then nan else if 0 < b then negInf else posInf
  | posInf, posInf => posInf
  | negInf, negInf => posInf
  | posInf, negInf => negInf
  | negInf, posInf => negInf

/-- The exact quotient of two values; `0 / 0` and `∞ / ∞` are invalid and give
NaN, a nonzero value divided by zero gives an infinity (the zero taken as
positive). -/
def divExact : FloatVal → FloatVal → FloatVal
  | nan, _ => nan
  | _, nan => nan
  | finite a, finite b =>
    if b = 0 then (if a = 0 then nan else if 0 < a then posInf else negInf)
    else finite (a / b)
  | finite _, posInf => finite 0
  | finite _, negInf => finite 0
  | posInf, finite b => if 0 ≤ b then posInf else negInf
  | negInf, finite b => if 0 ≤ b then negInf else posInf
  | posInf, posInf => nan
  | negInf, negInf => nan
  | posInf, negInf => nan
  | negInf, posInf => nan

/-- Rounding of an exact result with the rounding `R` of a format; infinities
and NaN are kept. -/
def round (R : ℚ → FloatVal) : FloatVal → FloatVal
  | finite q => R q
  | v => v

end FloatVal

/-- The `float` sum `a + b`. -/
def add32 (a b : FloatVal) : FloatVal := (a.addExact b).round R32

/-- The `float` difference `a - b`. -/
def sub32 (a b : FloatVal) : FloatVal := (a.addExact b.neg).round R32

/-- The `float` product `a * b`. -/
def mul32 (a b : FloatVal) : FloatVal := (a.mulExact b).round R32

/-- The `float` fused multiply-add `a * b + c`, rounded once. -/
def fma32 (a b c : FloatVal) : FloatVal := ((a.mulExact b).addExact c).round R32

/-- The `double` difference `a - b`. -/
def sub64 (a b : FloatVal) : FloatVal := (a.addExact b.neg).round R64

/-- The `double` quotient `a / b`. -/
def div64 (a b : FloatVal) : FloatVal := (a.divExact b).round R64

/-- Conversion of an integer to `float`. -/
def intToFloat (n : Int) : FloatVal := R32 n

/-- Conversion of an integer to `double`. -/
def intToDouble (n : Int) : FloatVal := R64 n

/-! ## The motor tasks in `float` arithmetic -/

/-- How the compiler evaluates `motor_speed * sim_A + duty_cycle_var * sim_B`:
C++ lets an implementation contract a product and the following sum into one
fused multiply-add, which rounds once instead of twice. -/
inductive Contraction where
  /-- Both products and the sum are rounded separately. -/
  | separate
  /-- The product `motor_speed * sim_A` is fused with the addition. -/
  | fusedSpeed
  /-- The product `duty_cycle_var * sim_B` is fused with the addition. -/
  | fusedCommand
  deriving DecidableEq

/-- The local `float sim_A = 0.9`: the `double` literal `0.9` converted to
`float`. -/
def sim_A_f32 : FloatVal := (R64 (9 / 10)).round R32

/-- The local `float sim_B = 1 - sim_A`: the `int` 1 converted to `float`, and
a `float` subtraction. -/
def sim_B_f32 : FloatVal := sub32 (intToFloat 1) sim_A_f32

/-- The expression `motor_speed * sim_A + duty_cycle_var * sim_B` (lines 173
and 221) in `float` arithmetic; `duty_cycle_var` is converted to `float`
first. -/
def smoothing_f32 (fc : Contraction) (motor_speed : FloatVal) (duty_cycle_var : Int) :
    FloatVal :=
  match fc with
  | .separate =>
    add32 (mul32 motor_speed sim_A_f32) (mul32 (intToFloat duty_cycle_var) sim_B_f32)
  | .fusedSpeed =>
    fma32 motor_speed sim_A_f32 (mul32 (intToFloat duty_cycle_var) sim_B_f32)
  | .fusedCommand =>
    fma32 (intToFloat duty_cycle_var) sim_B_f32 (mul32 motor_speed sim_A_f32)

/-- The conversion `(uint32_t) x` of a `float`; undefined (`none`) for an
infinity, for NaN and for a finite value outside `-1 < x < 2^32`. -/
def castUInt32 : FloatVal → Option Nat
  | .finite q => toUInt32 q
  | _ => none

/-- Result of one pass through the loop body of a motor task in `float`
arithmetic: the local `motor_speed` after the pass and the `runMotor` calls
made, in order. -/
structure MotorTickF32 where
  motor_speed : FloatVal
  calls : List RunMotorCall
  deriving DecidableEq

/-- One pass through the loop body of `task_RS_Motor1` (lines 166-180) in
`float` arithmetic. -/
def task_RS_Motor1_tick_f32 (fc : Contraction) (motor_speed : FloatVal) (sh : Shares) :
    MotorTickF32 :=
  let duty_cycle_var := sh.M1_duty_cycle
  let (motor_speed, turn_stored) :=
    if duty_cycle_var = 0 then
      (FloatVal.finite 0, true)
    else
      (smoothing_f32 fc motor_speed duty_cycle_var, sh.turn)
  ⟨motor_speed, [⟨castUInt32 motor_speed, turn_stored⟩]⟩

/-- One pass through the loop body of `task_RS_Motor2` (lines 215-227) in
`float` arithmetic. -/
def task_RS_Motor2_tick_f32 (fc : Contraction) (motor_speed : FloatVal) (sh : Shares) :
    MotorTickF32 :=
  let duty_cycle_var := sh.M2_duty_cycle
  let motor_speed :=
    if duty_cycle_var = 0 then
      FloatVal.finite 0
    else
      smoothing_f32 fc motor_speed duty_cycle_var
  ⟨motor_speed, [⟨castUInt32 motor_speed, true⟩]⟩

/-- The local `motor_speed` of `task_RS_Motor1` after its first `n` passes in
`float` arithmetic, when pass number `i` (counted from 0) finds the shares
`snaps i`. -/
def task_RS_Motor1_speed_f32 (fc : Contraction) (motor_speed : FloatVal)
    (snaps : Nat → Shares) : Nat → FloatVal
  | 0 => motor_speed
  | n + 1 =>
    (task_RS_Motor1_tick_f32 fc (task_RS_Motor1_speed_f32 fc motor_speed snaps n)
      (snaps n)).motor_speed

/-- The local `motor_speed` of `task_RS_Motor2` after its first `n` passes in
`float` arithmetic. -/
def task_RS_Motor2_speed_f32 (fc : Contraction) (motor_speed : FloatVal)
    (snaps : Nat → Shares) : Nat → FloatVal
  | 0 => motor_speed
  | n + 1 =>
    (task_RS_Motor2_tick_f32 fc (task_RS_Motor2_speed_f32 fc motor_speed snaps n)
      (snaps n)).motor_speed

/-! ## `task_sensor_scan` -/

/-- The conversion of a floating value to `int` in an assignment: the
fractional part is discarded (truncation toward zero).  C++ defines the result
only when the truncated value fits `int` (32 bits); `none` stands for the
undefined case. -/
def toInt32 (x : ℚ) : Option Int :=
  if -2147483649 < x ∧ x < 2147483648 then
    some (if 0 ≤ x then ⌊x⌋ else ⌈x⌉)
  else
    none

/-- The conversion of a `double` to `int`; undefined (`none`) for an infinity,
for NaN and for a finite value whose truncation does not fit. -/
def castInt32 : FloatVal → Option Int
  | .finite q => toInt32 q
  | _ => none

/-- The expression `5269.8/(ir_reading-136.88)` of line 128.  The literals are
`double`, so `ir_reading` is converted to `double` and the subtraction and the
division are `double` operations. -/
def ir_conversion (ir_reading : Int) : FloatVal :=
  div64 (R64 (52698 / 10)) (sub64 (intToDouble ir_reading) (R64 (13688 / 100)))

/-- One pass through the loop body of `task_sensor_scan` (lines 113-132).
`pulse` is the value returned by `pulseIn` and `ir_reading` the value returned
by `analogRead`; the pin set-up and the trigger pulse are not modelled.
`us_duration` is the pulse length converted to `float`; `us_duration / 58.2`
is a `double` division whose result is converted to `float`.  `ir_distance` is
a local of type `int`, so the assignment on line 128 converts the `double`
quotient to `int`, and `IR_distance.put` converts that `int` to `float`; the
result is `none` when the conversion to `int` is undefined. -/
def task_sensor_scan_tick (pulse : Nat) (ir_reading : Int) (sh : Shares) : Option Shares :=
  let us_duration : FloatVal := R32 pulse
  let us_distance : FloatVal := (div64 us_duration (R64 (582 / 10))).round R32
  match castInt32 (ir_conversion ir_reading) with
  | none => none
  | some ir_distance =>
    some { sh with US_distance := us_distance, IR_distance := intToFloat ir_distance }

/-! ## Auxiliary definitions for the proofs -/

def log2Bound : List Nat → Nat
  | [] => 1
  | i :: _ => 2 * i

def log2Good : List Nat → Prop
  | [] => True
  | i :: is => i ≤ log2Bound is ∧ log2Good is

/-- A rational is representable with precision `p` and least exponent `emin`. -/
def IsRep (p : Nat) (emin : Int) (y : ℚ) : Prop :=
  ∃ m k : Int, |m| ≤ 2 ^ p ∧ emin - ((p : Int) - 1) ≤ k ∧ y = (m : ℚ) * (2 : ℚ) ^ k

/-- Normal form of a positive representable value `s`: `s = m * 2 ^ k` with the
mantissa `m` in `(2 ^ (p - 1), 2 ^ p]`, or `k` the least exponent; `g = 2 ^ k`
is then the distance from `s` to the next representable value below it. -/
def NormAt (p : Nat) (emin : Int) (s g : ℚ) : Prop :=
  ∃ m k : Int, s = (m : ℚ) * (2 : ℚ) ^ k ∧ g = (2 : ℚ) ^ k ∧ emin - ((p : Int) - 1) ≤ k ∧
    0 < m ∧ m ≤ 2 ^ p ∧ (2 ^ (p - 1) < m ∨ k = emin - ((p : Int) - 1))

/-- The value of `sim_A_f32`, the `float` nearest to `0.9`. -/
def simA : ℚ := 7549747 / 8388608

/-- The value of `sim_B_f32`. -/
def simB : ℚ := 838861 / 8388608

/-- The value of `smoothing_f32` at a finite speed `s` and a command whose
conversion to `float` is `c`, when no operation overflows. -/
def smoothQ (fc : Contraction) (s c : ℚ) : ℚ :=
  match fc with
  | .separate =>
    roundTo 24 (-126) (roundTo 24 (-126) (s * simA) + roundTo 24 (-126) (c * simB))
  | .fusedSpeed => roundTo 24 (-126) (s * simA + roundTo 24 (-126) (c * simB))
  | .fusedCommand => roundTo 24 (-126) (c * simB + roundTo 24 (-126) (s * simA))

/-- For a command `c` in 1..255, the number `j` with
`2 ^ 23 < c * 2 ^ j ≤ 2 ^ 24`; the `float` values next to `c` are then at
distance at least `2 ^ (-j)` from it. -/
def cmdGapExp (c : Nat) : Nat :=
  24 - (if c ≤ 1 then 0 else log2n (c - 1) + 1)

/-- Numerical facts about the command `c`, checked by evaluation: the normal
form of `c`, the rounding error of `c * sim_B` is less than `sim_B` times the
gap next to `c`, and the speed `c` is kept under command `c`. -/
def cmdCheck (c : Nat) : Bool :=
  decide (2 ^ 23 < c * 2 ^ cmdGapExp c ∧ c * 2 ^ cmdGapExp c ≤ 2 ^ 24 ∧
    |roundTo 24 (-126) ((c : ℚ) * simB) - (c : ℚ) * simB| * 2 ^ cmdGapExp c < simB ∧
    smoothQ .separate c c = c ∧ smoothQ .fusedSpeed c c = c ∧ smoothQ .fusedCommand c c = c)

/-! ## Shared lemmas -/

theorem FloatVal.gtInt_false_of_leInt {x : FloatVal} {k : Int}
    (h : x.leInt k = true) : x.gtInt k = false := by
  cases x <;> simp_all [FloatVal.leInt, FloatVal.gtInt]

/-- Evaluation of `toUInt32` on a non-negative value in range: the result is the
natural number `n` with `n ≤ x < n + 1`. -/
theorem toUInt32_of_mem_Ico {x : ℚ} (n : Nat) (h1 : (n : ℚ) ≤ x) (h2 : x < (n : ℚ) + 1)
    (h3 : x < 4294967296) : toUInt32 x = some n := by
  have h0 : (0 : ℚ) ≤ x := le_trans (Nat.cast_nonneg n) h1
  have hfl : ⌊x⌋ = (n : ℤ) := by
    rw [Int.floor_eq_iff]
    exact ⟨by exact_mod_cast h1, by exact_mod_cast h2⟩
  have hlt : (-1 : ℚ) < x := lt_of_lt_of_le (by norm_num) h0
  simp [toUInt32, hlt, h3, h0, hfl]

theorem toUInt32_zero : toUInt32 0 = some 0 := by
  simpa using toUInt32_of_mem_Ico (x := 0) 0 (by norm_num) (by norm_num) (by norm_num)

theorem task_RS_Motor2_tick_congr {a b : Shares} (h : a.M2_duty_cycle = b.M2_duty_cycle)
    (s : ℚ) : task_RS_Motor2_tick s a = task_RS_Motor2_tick s b := by
  simp [task_RS_Motor2_tick, h]

theorem task_RS_Motor2_run_congr {l l' : List Shares}
    (h : List.Forall₂ (fun a b => a.M2_duty_cycle = b.M2_duty_cycle) l l') :
    ∀ s : ℚ, task_RS_Motor2_run s l = task_RS_Motor2_run s l' := by
  induction h with
  | nil => intro s; rfl
  | cons hab _ ih =>
    intro s
    simp only [task_RS_Motor2_run]
    rw [task_RS_Motor2_tick_congr hab s, ih]

theorem task_RS_Motor2_run_clockwise (l : List Shares) :
    ∀ s : ℚ, ∀ c ∈ (task_RS_Motor2_run s l).calls, c.clockwise = true := by
  induction l with
  | nil => intro s c hc; simp [task_RS_Motor2_run] at hc
  | cons sh rest ih =>
    intro s c hc
    simp only [task_RS_Motor2_run, List.mem_append] at hc
    rcases hc with hc | hc
    · simp [task_RS_Motor2_tick] at hc
      simp [hc]
    · exact ih _ c hc

/-- The four shapes a pass of `task_process_sensor_data` can take, each with
the branch conditions under which it is taken. -/
theorem task_process_sensor_data_tick_cases (state : Int) (sh : Shares) :
    (sh.US_distance.gtInt 40 = true ∧
      task_process_sensor_data_tick state sh =
        (0, [.M1_put 255, .M2_put 255, .turn_put false])) ∨
    (sh.US_distance.gtInt 40 = false ∧ sh.IR_distance.gtInt 20 = true ∧
      task_process_sensor_data_tick state sh =
        (0, [.M1_put 200, .M2_put 200, .turn_put false])) ∨
    (sh.US_distance.gtInt 40 = false ∧ sh.IR_distance.gtInt 20 = false ∧ state ≠ 0 ∧
      task_process_sensor_data_tick state sh =
        (state, [.M1_put 200, .M2_put 200, .turn_put true])) ∨
    (sh.US_distance.gtInt 40 = false ∧ sh.IR_distance.gtInt 20 = false ∧ state = 0 ∧
      task_process_sensor_data_tick state sh =
        (1, [.M1_put 0, .M2_put 0, .turn_put false, .delay 5000])) := by
  unfold task_process_sensor_data_tick
  by_cases h1 : sh.US_distance.gtInt 40 = true
  · simp [h1, full_speed]
  · by_cases h2 : sh.IR_distance.gtInt 20 = true
    · simp [h1, h2, partial_speed]
    · by_cases h3 : state = 0
      · simp [h1, h2, h3]
      · simp [h1, h2, h3, partial_speed]

/-- For a value that is not NaN, `x > k` is false exactly when `x <= k`. -/
theorem FloatVal.gtInt_false_iff_leInt {x : FloatVal} (hx : x ≠ FloatVal.nan) (k : Int) :
    x.gtInt k = false ↔ x.leInt k = true := by
  cases x <;> simp_all [FloatVal.leInt, FloatVal.gtInt]

/-- Every record of a run is a pass of `task_process_sensor_data` from some
state on some shares. -/
theorem task_process_sensor_data_run_mem (readings : List (FloatVal × FloatVal)) :
    ∀ (state : Int) (sh : Shares), ∀ r ∈ task_process_sensor_data_run state sh readings,
      ∃ (st : Int) (sh0 : Shares),
        r.state = (task_process_sensor_data_tick st sh0).1 ∧
        r.actions = (task_process_sensor_data_tick st sh0).2 ∧
        r.shares = sh0.exec (task_process_sensor_data_tick st sh0).2 := by
  induction readings with
  | nil => intro state sh r hr; simp [task_process_sensor_data_run] at hr
  | cons p rest ih =>
    intro state sh r hr
    obtain ⟨us, ir⟩ := p
    simp only [task_process_sensor_data_run, List.mem_cons] at hr
    rcases hr with hr | hr
    · exact ⟨state, { sh with US_distance := us, IR_distance := ir }, by simp [hr]⟩
    · exact ih _ _ r hr

/-- The commands in the shares after a pass of `task_process_sensor_data` are
equal and are 0, 200 or 255. -/
theorem task_process_sensor_data_tick_commands (state : Int) (sh : Shares) :
    ((sh.exec (task_process_sensor_data_tick state sh).2).M1_duty_cycle = 0 ∨
     (sh.exec (task_process_sensor_data_tick state sh).2).M1_duty_cycle = 200 ∨
     (sh.exec (task_process_sensor_data_tick state sh).2).M1_duty_cycle = 255) ∧
    (sh.exec (task_process_sensor_data_tick state sh).2).M2_duty_cycle =
      (sh.exec (task_process_sensor_data_tick state sh).2).M1_duty_cycle := by
  rcases task_process_sensor_data_tick_cases state sh with
    ⟨_, h⟩ | ⟨_, _, h⟩ | ⟨_, _, _, h⟩ | ⟨_, _, _, h⟩ <;>
  simp [h, Shares.exec, Action.apply]

/-- On the range where `(uint32_t) x` is defined, its value is `x` truncated
toward zero. -/
theorem toUInt32_eq_truncToZero {x : ℚ} (h1 : -1 < x) (h2 : x < 4294967296) :
    ∃ d : Nat, toUInt32 x = some d ∧ (d : Int) = truncToZero x := by
  by_cases h0 : 0 ≤ x
  · refine ⟨⌊x⌋.toNat, by simp [toUInt32, h1, h2, h0], ?_⟩
    simp only [truncToZero, h0, if_true]
    exact Int.toNat_of_nonneg (Int.floor_nonneg.mpr h0)
  · have hneg : x < 0 := lt_of_not_le h0
    have hc : ⌈x⌉ = 0 := by
      rw [Int.ceil_eq_iff]
      constructor
      · simpa using h1
      · simpa using hneg.le
    refine ⟨0, by simp [toUInt32, h1, h2, h0, hc], ?_⟩
    simp [truncToZero, h0, hc]

/-- Outside the range `-1 < x < 2^32` the conversion `(uint32_t) x` has no
defined value. -/
theorem toUInt32_eq_none {x : ℚ} (h : ¬ (-1 < x ∧ x < 4294967296)) : toUInt32 x = none := by
  simp only [toUInt32, h, if_false]

/-- A defined value of `(uint32_t) x` is `x` truncated toward zero. -/
theorem toUInt32_some {x : ℚ} {d : Nat} (h : toUInt32 x = some d) :
    -1 < x ∧ x < 4294967296 ∧ (d : Int) = truncToZero x := by
  by_cases hr : -1 < x ∧ x < 4294967296
  · obtain ⟨d', hd', ht⟩ := toUInt32_eq_truncToZero hr.1 hr.2
    rw [hd'] at h
    have : d' = d := by simpa using h
    subst this
    exact ⟨hr.1, hr.2, ht⟩
  · rw [toUInt32_eq_none hr] at h
    exact absurd h (by simp)

/-- Truncation toward zero of a value in `(-1, c)`, `c` an integer at least 1,
lies in `[0, c - 1]`. -/
theorem truncToZero_bounds {x : ℚ} {c : Int} (h1 : -1 < x) (h2 : x < c) (hc : 1 ≤ c) :
    0 ≤ truncToZero x ∧ truncToZero x ≤ c - 1 := by
  by_cases h0 : 0 ≤ x
  · simp only [truncToZero, h0, if_true]
    have hlt : ⌊x⌋ < c := Int.floor_lt.mpr h2
    exact ⟨Int.floor_nonneg.mpr h0, by omega⟩
  · have hneg : x < 0 := lt_of_not_le h0
    have hc0 : ⌈x⌉ = 0 := by
      rw [Int.ceil_eq_iff]
      constructor
      · simpa using h1
      · simpa using hneg.le
    simp only [truncToZero, h0, if_false, hc0]
    omega

/-- The duty handed to `runMotor` for a speed in `[0, 255]` is defined, is the
truncation of the speed, and is at most 255. -/
theorem toUInt32_of_range {x : ℚ} (h0 : 0 ≤ x) (h1 : x ≤ 255) :
    ∃ d : Nat, toUInt32 x = some d ∧ (d : Int) = truncToZero x ∧ d ≤ 255 := by
  obtain ⟨d, hd, ht⟩ := toUInt32_eq_truncToZero (x := x) (by linarith) (by linarith)
  have hb := truncToZero_bounds (x := x) (c := 256) (by linarith)
    (by push_cast; linarith) (by norm_num)
  exact ⟨d, hd, ht, by omega⟩

/-! ## Lemmas on rounding -/

/-- With shifts that halve from one to the next, `log2Aux` adds to `b` the
position `e` of the leading bit of `v`. -/
theorem log2Aux_spec : ∀ (l : List Nat), log2Good l → ∀ (v b : Nat), 0 < v →
    v < 2 ^ log2Bound l →
    ∃ e, log2Aux l v b = b + e ∧ 2 ^ e ≤ v ∧ v < 2 ^ (e + 1) := by
  intro l
  induction l with
  | nil =>
    intro _ v b hv hlt
    refine ⟨0, by simp [log2Aux], by simpa using hv, by simpa [log2Bound] using hlt⟩
  | cons i is ih =>
    intro hg v b hv hlt
    obtain ⟨hi, hg'⟩ := hg
    by_cases h : 2 ^ i ≤ v
    · have hq : 0 < v / 2 ^ i := Nat.div_pos h (by positivity)
      have hq2 : v / 2 ^ i < 2 ^ log2Bound is := by
        have : v / 2 ^ i < 2 ^ i := by
          rw [Nat.div_lt_iff_lt_mul (by positivity)]
          calc v < 2 ^ (2 * i) := hlt
            _ = 2 ^ i * 2 ^ i := by rw [two_mul, pow_add]
        exact lt_of_lt_of_le this (Nat.pow_le_pow_right (by norm_num) hi)
      obtain ⟨e, he, h1, h2⟩ := ih hg' (v / 2 ^ i) (b + i) hq hq2
      refine ⟨i + e, ?_, ?_, ?_⟩
      · simp only [log2Aux, h, if_true, he]; ring
      · calc 2 ^ (i + e) = 2 ^ e * 2 ^ i := by rw [pow_add, mul_comm]
          _ ≤ v / 2 ^ i * 2 ^ i := Nat.mul_le_mul_right _ h1
          _ ≤ v := Nat.div_mul_le_self v (2 ^ i)
      · have : v / 2 ^ i + 1 ≤ 2 ^ (e + 1) := h2
        calc v < (v / 2 ^ i + 1) * 2 ^ i := by
              linarith [Nat.div_add_mod v (2 ^ i), Nat.mod_lt v (show 0 < 2 ^ i by positivity),
                mul_comm (v / 2 ^ i) (2 ^ i)]
          _ ≤ 2 ^ (e + 1) * 2 ^ i := Nat.mul_le_mul_right _ this
          _ = 2 ^ (i + e + 1) := by rw [← pow_add]; congr 1; ring
    · have hv2 : v < 2 ^ log2Bound is :=
        lt_of_lt_of_le (not_le.mp h) (Nat.pow_le_pow_right (by norm_num) hi)
      obtain ⟨e, he, h1, h2⟩ := ih hg' v b hv hv2
      exact ⟨e, by simp only [log2Aux, h, if_false, he], h1, h2⟩

/-- The number `log2n n` is the position of the leading bit of `n > 0`. -/
theorem log2n_spec (n : Nat) (hn : 0 < n) : 2 ^ log2n n ≤ n ∧ n < 2 ^ (log2n n + 1) := by
  unfold log2n
  split_ifs with h1 h2
  · obtain ⟨e, he, h⟩ := log2Aux_spec log2Shifts64 (by simp [log2Shifts64, log2Good, log2Bound])
      n 0 hn (by rw [show log2Bound log2Shifts64 = 64 from rfl]; exact h1)
    rw [he, zero_add]; exact h
  · obtain ⟨e, he, h⟩ := log2Aux_spec log2Shifts (by simp [log2Shifts, log2Good, log2Bound])
      n 0 hn (by rw [show log2Bound log2Shifts = 8192 from rfl]; exact h2)
    rw [he, zero_add]; exact h
  · exact ⟨Nat.pow_log_le_self 2 hn.ne', Nat.lt_pow_succ_log_self (by norm_num) n⟩

/-- A power of 2 with an integer exponent as a quotient of two natural powers. -/
theorem two_zpow_eq_div (d : Int) : (2 : ℚ) ^ d = (2 : ℚ) ^ d.toNat / (2 : ℚ) ^ (-d).toNat := by
  rcases le_total 0 d with h | h
  · have h2 : (-d).toNat = 0 := Int.toNat_eq_zero.mpr (by omega)
    rw [h2, pow_zero, div_one, ← zpow_natCast, Int.toNat_of_nonneg h]
  · have h2 : d.toNat = 0 := Int.toNat_eq_zero.mpr h
    rw [h2, pow_zero, ← zpow_natCast, Int.toNat_of_nonneg (by omega : 0 ≤ -d), zpow_neg,
      one_div, inv_inv]

/-- The integer `expoFrac a b` is the binary exponent of `a / b`. -/
theorem expoFrac_spec (a b : Nat) (ha : 0 < a) (hb : 0 < b) :
    (2 : ℚ) ^ expoFrac a b ≤ (a : ℚ) / b ∧ (a : ℚ) / b < (2 : ℚ) ^ (expoFrac a b + 1) := by
  obtain ⟨a1, a2⟩ := log2n_spec a ha
  obtain ⟨b1, b2⟩ := log2n_spec b hb
  have hbQ : (0 : ℚ) < b := by exact_mod_cast hb
  have a1Q : (2 : ℚ) ^ (log2n a : Int) ≤ a := by rw [zpow_natCast]; exact_mod_cast a1
  have a2Q : (a : ℚ) < (2 : ℚ) ^ ((log2n a : Int) + 1) := by
    rw [show ((log2n a : Int) + 1) = ((log2n a + 1 : Nat) : Int) by push_cast; ring, zpow_natCast]
    exact_mod_cast a2
  have b1Q : (2 : ℚ) ^ (log2n b : Int) ≤ b := by rw [zpow_natCast]; exact_mod_cast b1
  have b2Q : (b : ℚ) < (2 : ℚ) ^ ((log2n b : Int) + 1) := by
    rw [show ((log2n b : Int) + 1) = ((log2n b + 1 : Nat) : Int) by push_cast; ring, zpow_natCast]
    exact_mod_cast b2
  have two_pos : ∀ z : Int, (0 : ℚ) < (2 : ℚ) ^ z := fun z => zpow_pos (by norm_num) z
  -- a / b lies strictly between 2 ^ (d - 1) and 2 ^ (d + 1)
  have lo : (2 : ℚ) ^ ((log2n a : Int) - (log2n b : Int) - 1) < (a : ℚ) / b := by
    rw [lt_div_iff₀ hbQ]
    calc (2 : ℚ) ^ ((log2n a : Int) - (log2n b : Int) - 1) * b
        < (2 : ℚ) ^ ((log2n a : Int) - (log2n b : Int) - 1) * (2 : ℚ) ^ ((log2n b : Int) + 1) :=
          mul_lt_mul_of_pos_left b2Q (two_pos _)
      _ = (2 : ℚ) ^ (log2n a : Int) := by
          rw [← zpow_add₀ (by norm_num : (2 : ℚ) ≠ 0)]; congr 1; ring
      _ ≤ a := a1Q
  have hi : (a : ℚ) / b < (2 : ℚ) ^ ((log2n a : Int) - (log2n b : Int) + 1) := by
    rw [div_lt_iff₀ hbQ]
    calc (a : ℚ) < (2 : ℚ) ^ ((log2n a : Int) + 1) := a2Q
      _ = (2 : ℚ) ^ ((log2n a : Int) - (log2n b : Int) + 1) * (2 : ℚ) ^ (log2n b : Int) := by
          rw [← zpow_add₀ (by norm_num : (2 : ℚ) ≠ 0)]; congr 1; ring
      _ ≤ (2 : ℚ) ^ ((log2n a : Int) - (log2n b : Int) + 1) * b :=
          mul_le_mul_of_nonneg_left b1Q (two_pos _).le
  have test : ∀ d : Int, (b * 2 ^ d.toNat ≤ a * 2 ^ (-d).toNat) ↔ (2 : ℚ) ^ d ≤ (a : ℚ) / b := by
    intro d
    rw [two_zpow_eq_div d, div_le_div_iff₀ (by positivity) hbQ]
    constructor
    · intro h
      have : ((b * 2 ^ d.toNat : Nat) : ℚ) ≤ ((a * 2 ^ (-d).toNat : Nat) : ℚ) := by
        exact_mod_cast h
      push_cast at this
      linarith
    · intro h
      have : ((b * 2 ^ d.toNat : Nat) : ℚ) ≤ ((a * 2 ^ (-d).toNat : Nat) : ℚ) := by
        push_cast
        linarith
      exact_mod_cast this
  unfold expoFrac
  simp only
  split_ifs with h
  · exact ⟨(test _).mp h, hi⟩
  · refine ⟨lo.le, ?_⟩
    have := (not_iff_not.mpr (test _)).mp h
    rw [sub_add_cancel]
    exact not_le.mp this

/-- The integer `roundHalfEven P Q` is within 1/2 of `P / Q`. -/
theorem roundHalfEven_spec (P : Int) (Q : Nat) (hQ : 0 < Q) :
    |((roundHalfEven P Q : Int) : ℚ) - (P : ℚ) / Q| ≤ 1 / 2 := by
  have hQZ : (0 : Int) < Q := by exact_mod_cast hQ
  have hQQ : (0 : ℚ) < Q := by exact_mod_cast hQ
  have h0 : 0 ≤ P % (Q : Int) := Int.emod_nonneg _ hQZ.ne'
  have h1 : P % (Q : Int) < Q := Int.emod_lt_of_pos _ hQZ
  have hd : (Q : Int) * (P / (Q : Int)) + P % (Q : Int) = P := Int.ediv_add_emod P Q
  have hdQ : (P : ℚ) / Q = ((P / (Q : Int) : Int) : ℚ) + ((P % (Q : Int) : Int) : ℚ) / Q := by
    have hP : (P : ℚ) = (Q : ℚ) * ((P / (Q : Int) : Int) : ℚ) + ((P % (Q : Int) : Int) : ℚ) := by
      exact_mod_cast hd.symm
    rw [div_eq_iff hQQ.ne', add_mul, div_mul_cancel₀ _ hQQ.ne']
    linarith
  have r0 : (0 : ℚ) ≤ ((P % (Q : Int) : Int) : ℚ) / Q := by
    apply div_nonneg _ hQQ.le
    exact_mod_cast h0
  have r1 : ((P % (Q : Int) : Int) : ℚ) / Q < 1 := by
    rw [div_lt_one hQQ]
    exact_mod_cast h1
  unfold roundHalfEven
  simp only
  have c1 : 2 * (P % (Q : Int)) < Q → ((P % (Q : Int) : Int) : ℚ) / Q < 1 / 2 := by
    intro h
    rw [div_lt_iff₀ hQQ]
    have : ((2 * (P % (Q : Int)) : Int) : ℚ) < ((Q : Int) : ℚ) := by exact_mod_cast h
    push_cast at this
    linarith
  have c2 : (Q : Int) < 2 * (P % (Q : Int)) → 1 / 2 < ((P % (Q : Int) : Int) : ℚ) / Q := by
    intro h
    rw [lt_div_iff₀ hQQ]
    have : ((Q : Int) : ℚ) < ((2 * (P % (Q : Int)) : Int) : ℚ) := by exact_mod_cast h
    push_cast at this
    linarith
  have c3 : ¬ 2 * (P % (Q : Int)) < Q → ¬ (Q : Int) < 2 * (P % (Q : Int)) →
      ((P % (Q : Int) : Int) : ℚ) / Q = 1 / 2 := by
    intro ha hb
    have he : 2 * (P % (Q : Int)) = Q := le_antisymm (not_lt.mp hb) (not_lt.mp ha)
    rw [div_eq_iff hQQ.ne']
    have : ((2 * (P % (Q : Int)) : Int) : ℚ) = ((Q : Int) : ℚ) := by exact_mod_cast he
    push_cast at this
    linarith
  split_ifs with ha hb hc
  · rw [hdQ, abs_le]; constructor <;> linarith [c1 ha]
  · rw [hdQ, abs_le]; push_cast; constructor <;> linarith [c2 hb]
  · rw [hdQ, abs_le]; constructor <;> linarith [c3 ha hb]
  · rw [hdQ, abs_le]; push_cast; constructor <;> linarith [c3 ha hb]

/-- Ties go to the even integer: when `P / Q` lies halfway between two
integers, `roundHalfEven P Q` is even. -/
theorem roundHalfEven_tie (P : Int) (Q : Nat) (h : 2 * (P % (Q : Int)) = Q) :
    roundHalfEven P Q % 2 = 0 := by
  unfold roundHalfEven
  simp only
  split_ifs with a b c
  · omega
  · omega
  · exact c
  · omega

theorem abs_eq_natAbs_div (x : ℚ) : |x| = (x.num.natAbs : ℚ) / x.den := by
  have hden : (0 : ℚ) < x.den := by exact_mod_cast x.den_pos
  conv_lhs => rw [← Rat.num_div_den x]
  rw [abs_div, abs_of_pos hden, Nat.cast_natAbs, Int.cast_abs]

/-- The quantum exponent `k` of `x ≠ 0`: it is not below the least exponent,
`|x| < 2 ^ (k + p)`, and unless `k` is the least exponent `2 ^ (k + p - 1) ≤ |x|`. -/
theorem quantumExp_spec (p : Nat) (emin : Int) (x : ℚ) (hx : x ≠ 0) :
    emin - ((p : Int) - 1) ≤ quantumExp p emin x ∧
    |x| < (2 : ℚ) ^ (quantumExp p emin x + p) ∧
    (quantumExp p emin x = emin - ((p : Int) - 1) ∨
      (2 : ℚ) ^ (quantumExp p emin x + p - 1) ≤ |x|) := by
  have hnum : 0 < x.num.natAbs := Int.natAbs_pos.mpr (Rat.num_ne_zero.mpr hx)
  obtain ⟨e1, e2⟩ := expoFrac_spec x.num.natAbs x.den hnum x.den_pos
  rw [← abs_eq_natAbs_div] at e1 e2
  unfold quantumExp
  refine ⟨by have := le_max_right (expoFrac x.num.natAbs x.den) emin; omega, ?_, ?_⟩
  · refine lt_of_lt_of_le e2 (zpow_le_zpow_right₀ (by norm_num) ?_)
    have := le_max_left (expoFrac x.num.natAbs x.den) emin
    omega
  · rcases le_total (expoFrac x.num.natAbs x.den) emin with h | h
    · left; rw [max_eq_right h]
    · right
      rw [max_eq_left h]
      rw [show expoFrac x.num.natAbs x.den - ((p : Int) - 1) + p - 1 =
        expoFrac x.num.natAbs x.den by ring]
      exact e1

theorem roundTo_zero (p : Nat) (emin : Int) : roundTo p emin 0 = 0 := by
  simp [roundTo]

/-- The value of `roundTo` at `x ≠ 0`: an integer multiple `n * 2 ^ k` of the
quantum, with `n` within 1/2 of `x / 2 ^ k`. -/
theorem roundTo_eq (p : Nat) (emin : Int) (x : ℚ) (hx : x ≠ 0) :
    ∃ n : Int, roundTo p emin x = (n : ℚ) * (2 : ℚ) ^ quantumExp p emin x ∧
      |(n : ℚ) - x / (2 : ℚ) ^ quantumExp p emin x| ≤ 1 / 2 := by
  have hnum : x.num ≠ 0 := Rat.num_ne_zero.mpr hx
  have hden : (0 : ℚ) < x.den := by exact_mod_cast x.den_pos
  set k := quantumExp p emin x with hk
  refine ⟨roundHalfEven (x.num * 2 ^ (-k).toNat) (x.den * 2 ^ k.toNat), ?_, ?_⟩
  · unfold roundTo
    rw [if_neg hnum]
    simp only
    rw [← hk]
    split_ifs with h
    · have h2 : (-k).toNat = 0 := Int.toNat_eq_zero.mpr (by omega)
      rw [two_zpow_eq_div k, h2]
      push_cast
      simp
    · have h2 : k.toNat = 0 := Int.toNat_eq_zero.mpr (by omega)
      rw [Rat.mkRat_eq_div, two_zpow_eq_div k, h2]
      push_cast
      simp [div_eq_mul_inv]
  · have hspec := roundHalfEven_spec (x.num * 2 ^ (-k).toNat) (x.den * 2 ^ k.toNat)
      (Nat.mul_pos x.den_pos (by positivity))
    have e : ((x.num * 2 ^ (-k).toNat : Int) : ℚ) / ((x.den * 2 ^ k.toNat : Nat) : ℚ) =
        x / (2 : ℚ) ^ k := by
      rw [two_zpow_eq_div k]
      conv_rhs => rw [← Rat.num_div_den x]
      push_cast
      field_simp
    rw [e] at hspec
    exact hspec

/-- An integer within 1/2 of `t` is at least as near to `t` as any integer. -/
theorem int_nearest (n : Int) (t : ℚ) (h : |(n : ℚ) - t| ≤ 1 / 2) (j : Int) :
    |(n : ℚ) - t| ≤ |(j : ℚ) - t| := by
  by_cases hj : j = n
  · rw [hj]
  · have h1 : (1 : ℚ) ≤ |(j : ℚ) - n| := by
      have : (1 : Int) ≤ |j - n| := Int.one_le_abs (sub_ne_zero.mpr hj)
      have h2 : ((1 : Int) : ℚ) ≤ ((|j - n| : Int) : ℚ) := by exact_mod_cast this
      simpa using h2
    have h3 : |(j : ℚ) - n| ≤ |(j : ℚ) - t| + |(n : ℚ) - t| := by
      have := abs_sub_le (j : ℚ) t n
      rwa [abs_sub_comm t (n : ℚ)] at this
    linarith

/-- No multiple of the quantum is nearer to `x` than `roundTo p emin x`. -/
theorem roundTo_grid (p : Nat) (emin : Int) (x : ℚ) (hx : x ≠ 0) (j : Int) :
    |roundTo p emin x - x| ≤ |(j : ℚ) * (2 : ℚ) ^ quantumExp p emin x - x| := by
  obtain ⟨n, hr, hn⟩ := roundTo_eq p emin x hx
  have hq : (0 : ℚ) < (2 : ℚ) ^ quantumExp p emin x := zpow_pos (by norm_num) _
  have e : ∀ i : Int, |(i : ℚ) * (2 : ℚ) ^ quantumExp p emin x - x| =
      |(i : ℚ) - x / (2 : ℚ) ^ quantumExp p emin x| * (2 : ℚ) ^ quantumExp p emin x := by
    intro i
    rw [← abs_of_pos hq, ← abs_mul, abs_of_pos hq, sub_mul, div_mul_cancel₀ _ hq.ne']
  rw [hr, e n, e j]
  exact mul_le_mul_of_nonneg_right (int_nearest n _ hn j) hq.le

/-- The rounded value is representable. -/
theorem roundTo_isRep (p : Nat) (emin : Int) (x : ℚ) : IsRep p emin (roundTo p emin x) := by
  by_cases hx : x = 0
  · subst hx
    exact ⟨0, emin - ((p : Int) - 1), by positivity, le_refl _, by simp [roundTo_zero]⟩
  · obtain ⟨n, hr, hn⟩ := roundTo_eq p emin x hx
    obtain ⟨q1, q2, _⟩ := quantumExp_spec p emin x hx
    have hq : (0 : ℚ) < (2 : ℚ) ^ quantumExp p emin x := zpow_pos (by norm_num) _
    refine ⟨n, quantumExp p emin x, ?_, q1, hr⟩
    have h1 : |x / (2 : ℚ) ^ quantumExp p emin x| < (2 : ℚ) ^ p := by
      rw [abs_div, abs_of_pos hq, div_lt_iff₀ hq, ← zpow_natCast, ← zpow_add₀ (by norm_num)]
      rw [add_comm]
      exact q2
    have h2 : |(n : ℚ)| < (2 : ℚ) ^ p + 1 / 2 := by
      have := abs_sub_le (n : ℚ) (x / (2 : ℚ) ^ quantumExp p emin x) 0
      simp only [sub_zero] at this
      linarith
    by_contra hc
    have h3 : (2 : Int) ^ p + 1 ≤ |n| := by omega
    have h4 : (((2 : Int) ^ p + 1 : Int) : ℚ) ≤ ((|n| : Int) : ℚ) := by exact_mod_cast h3
    push_cast at h4
    linarith

/-- Round to nearest: no representable value is nearer to `x` than
`roundTo p emin x`. -/
theorem roundTo_nearest (p : Nat) (hp : 1 ≤ p) (emin : Int) (x f : ℚ) (hf : IsRep p emin f) :
    |roundTo p emin x - x| ≤ |f - x| := by
  by_cases hx : x = 0
  · subst hx
    simp [roundTo_zero]
  obtain ⟨m, k', hm, hk', rfl⟩ := hf
  obtain ⟨q1, q2, q3⟩ := quantumExp_spec p emin x hx
  set k := quantumExp p emin x with hk
  have two_ne : (2 : ℚ) ≠ 0 := by norm_num
  rcases le_or_lt k k' with hkk | hkk
  · -- `f` lies on the grid of spacing `2 ^ k`
    have e : (m : ℚ) * (2 : ℚ) ^ k' = ((m * 2 ^ (k' - k).toNat : Int) : ℚ) * (2 : ℚ) ^ k := by
      push_cast
      rw [mul_assoc, ← zpow_natCast, Int.toNat_of_nonneg (by omega), ← zpow_add₀ two_ne]
      congr 2; ring
    rw [e]
    exact roundTo_grid p emin x hx _
  · -- `f` is below the binade of `x`
    have hM : (2 : ℚ) ^ (k + p - 1) ≤ |x| := by
      rcases q3 with h | h
      · omega
      · exact h
    have eM : (2 : ℚ) ^ (k + p - 1) = (((2 : Int) ^ (p - 1) : Int) : ℚ) * (2 : ℚ) ^ k := by
      push_cast
      rw [← zpow_natCast, ← zpow_add₀ two_ne]
      congr 1
      have : ((p - 1 : Nat) : Int) = (p : Int) - 1 := by omega
      rw [this]; ring
    have hf : |(m : ℚ) * (2 : ℚ) ^ k'| ≤ (2 : ℚ) ^ (k + p - 1) := by
      have hmQ : |(m : ℚ)| ≤ (2 : ℚ) ^ (p : Int) := by
        rw [zpow_natCast]
        have : ((|m| : Int) : ℚ) ≤ (((2 : Int) ^ p : Int) : ℚ) := by exact_mod_cast hm
        simpa using this
      rw [abs_mul, abs_of_pos (zpow_pos (by norm_num : (0 : ℚ) < 2) k')]
      calc |(m : ℚ)| * (2 : ℚ) ^ k' ≤ (2 : ℚ) ^ (p : Int) * (2 : ℚ) ^ k' :=
            mul_le_mul_of_nonneg_right hmQ (zpow_pos (by norm_num) _).le
        _ = (2 : ℚ) ^ ((p : Int) + k') := by rw [zpow_add₀ two_ne]
        _ ≤ (2 : ℚ) ^ (k + p - 1) := zpow_le_zpow_right₀ (by norm_num) (by omega)
    rcases lt_or_gt_of_ne hx with hneg | hpos
    · have g := roundTo_grid p emin x hx (-(2 : Int) ^ (p - 1))
      rw [← hk] at g
      have e2 : ((-(2 : Int) ^ (p - 1) : Int) : ℚ) * (2 : ℚ) ^ k = -(2 : ℚ) ^ (k + p - 1) := by
        rw [eM]; push_cast; ring
      rw [e2] at g
      rw [abs_of_neg hneg] at hM
      have h1 := (abs_le.mp hf).1
      rw [abs_of_nonneg (by linarith : 0 ≤ -(2 : ℚ) ^ (k + p - 1) - x)] at g
      rw [abs_of_nonneg (by linarith : 0 ≤ (m : ℚ) * (2 : ℚ) ^ k' - x)]
      linarith
    · have g := roundTo_grid p emin x hx ((2 : Int) ^ (p - 1))
      rw [← hk, ← eM] at g
      rw [abs_of_pos hpos] at hM
      have h1 := (abs_le.mp hf).2
      rw [abs_of_nonpos (by linarith : (2 : ℚ) ^ (k + p - 1) - x ≤ 0)] at g
      rw [abs_of_nonpos (by linarith : (m : ℚ) * (2 : ℚ) ^ k' - x ≤ 0)]
      linarith

/-- A representable value rounds to itself. -/
theorem roundTo_of_isRep (p : Nat) (hp : 1 ≤ p) (emin : Int) (f : ℚ) (hf : IsRep p emin f) :
    roundTo p emin f = f := by
  have := roundTo_nearest p hp emin f f hf
  rw [sub_self, abs_zero] at this
  exact sub_eq_zero.mp (abs_eq_zero.mp (le_antisymm this (abs_nonneg _)))

/-- Rounding is monotone. -/
theorem roundTo_mono (p : Nat) (hp : 1 ≤ p) (emin : Int) {x y : ℚ} (h : x ≤ y) :
    roundTo p emin x ≤ roundTo p emin y := by
  by_contra hc
  have hlt : roundTo p emin y < roundTo p emin x := not_le.mp hc
  have h1 := roundTo_nearest p hp emin x _ (roundTo_isRep p emin y)
  have h2 := roundTo_nearest p hp emin y _ (roundTo_isRep p emin x)
  rw [← sq_le_sq] at h1 h2
  have e1 : roundTo p emin x + roundTo p emin y ≤ 2 * x := by nlinarith
  have e2 : 2 * y ≤ roundTo p emin x + roundTo p emin y := by nlinarith
  have : x = y := by linarith
  rw [this] at hlt
  exact lt_irrefl _ hlt

theorem NormAt.pos {p : Nat} {emin : Int} {s g : ℚ} (h : NormAt p emin s g) : 0 < g := by
  obtain ⟨m, k, _, rfl, _⟩ := h
  exact zpow_pos (by norm_num) k

theorem NormAt.isRep {p : Nat} {emin : Int} {s g : ℚ} (h : NormAt p emin s g) :
    IsRep p emin s := by
  obtain ⟨m, k, rfl, _, hk, hm0, hm, _⟩ := h
  exact ⟨m, k, by rw [abs_of_pos hm0]; exact hm, hk, rfl⟩

theorem normAt_exists_aux (p : Nat) (hp : 1 ≤ p) (emin : Int) :
    ∀ (n : Nat) (m k : Int), k = emin - ((p : Int) - 1) + n → 0 < m → m ≤ 2 ^ p →
      ∃ g, NormAt p emin ((m : ℚ) * (2 : ℚ) ^ k) g := by
  intro n
  induction n with
  | zero =>
    intro m k hk hm0 hm
    exact ⟨(2 : ℚ) ^ k, m, k, rfl, rfl, by omega, hm0, hm, Or.inr (by simpa using hk)⟩
  | succ n ih =>
    intro m k hk hm0 hm
    by_cases hbig : (2 : Int) ^ (p - 1) < m
    · exact ⟨(2 : ℚ) ^ k, m, k, rfl, rfl, by omega, hm0, hm, Or.inl hbig⟩
    · have h2 : (2 : Int) ^ p = 2 * 2 ^ (p - 1) := by
        conv_lhs => rw [show p = (p - 1) + 1 by omega]
        rw [pow_succ]; ring
      obtain ⟨g, hg⟩ := ih (2 * m) (k - 1) (by push_cast at hk ⊢; omega) (by omega)
        (by rw [h2]; omega)
      refine ⟨g, ?_⟩
      have e : ((2 * m : Int) : ℚ) * (2 : ℚ) ^ (k - 1) = (m : ℚ) * (2 : ℚ) ^ k := by
        rw [zpow_sub₀ (by norm_num : (2 : ℚ) ≠ 0)]
        push_cast
        field_simp
        ring
      rwa [e] at hg

/-- Every positive representable value has a normal form. -/
theorem normAt_exists (p : Nat) (hp : 1 ≤ p) (emin : Int) (s : ℚ) (hs : IsRep p emin s)
    (hpos : 0 < s) : ∃ g, NormAt p emin s g := by
  obtain ⟨m, k, hm, hk, rfl⟩ := hs
  have hq : (0 : ℚ) < (2 : ℚ) ^ k := zpow_pos (by norm_num) k
  have hm0 : 0 < m := by
    have : (0 : ℚ) < m := by
      by_contra hc
      have : (m : ℚ) * (2 : ℚ) ^ k ≤ 0 := mul_nonpos_of_nonpos_of_nonneg (not_lt.mp hc) hq.le
      linarith
    exact_mod_cast this
  have hm2 : m ≤ 2 ^ p := le_trans (le_abs_self m) hm
  exact normAt_exists_aux p hp emin (k - (emin - ((p : Int) - 1))).toNat m k
    (by rw [Int.toNat_of_nonneg (by omega)]; ring) hm0 hm2

/-- Either a representable value is a multiple of `2 ^ k`, or it is at most
`2 ^ (p - 1) * 2 ^ k` in magnitude. -/
theorem isRep_grid_or_small (p : Nat) (hp : 1 ≤ p) (emin : Int) (f : ℚ) (hf : IsRep p emin f)
    (k : Int) :
    (∃ j : Int, f = (j : ℚ) * (2 : ℚ) ^ k) ∨
    (emin - ((p : Int) - 1) < k ∧ |f| ≤ (((2 : Int) ^ (p - 1) : Int) : ℚ) * (2 : ℚ) ^ k) := by
  obtain ⟨m, k', hm, hk', rfl⟩ := hf
  have two_ne : (2 : ℚ) ≠ 0 := by norm_num
  rcases le_or_lt k k' with hkk | hkk
  · left
    refine ⟨m * 2 ^ (k' - k).toNat, ?_⟩
    push_cast
    rw [mul_assoc, ← zpow_natCast, Int.toNat_of_nonneg (by omega), ← zpow_add₀ two_ne]
    congr 2; ring
  · right
    refine ⟨by omega, ?_⟩
    have hmQ : |(m : ℚ)| ≤ (2 : ℚ) ^ (p : Int) := by
      rw [zpow_natCast]
      have : ((|m| : Int) : ℚ) ≤ (((2 : Int) ^ p : Int) : ℚ) := by exact_mod_cast hm
      simpa using this
    rw [abs_mul, abs_of_pos (zpow_pos (by norm_num : (0 : ℚ) < 2) k')]
    calc |(m : ℚ)| * (2 : ℚ) ^ k' ≤ (2 : ℚ) ^ (p : Int) * (2 : ℚ) ^ k' :=
          mul_le_mul_of_nonneg_right hmQ (zpow_pos (by norm_num) _).le
      _ = (2 : ℚ) ^ ((p : Int) + k') := by rw [zpow_add₀ two_ne]
      _ ≤ (2 : ℚ) ^ (((p - 1 : Nat) : Int) + k) := zpow_le_zpow_right₀ (by norm_num) (by omega)
      _ = (((2 : Int) ^ (p - 1) : Int) : ℚ) * (2 : ℚ) ^ k := by
          push_cast
          rw [zpow_add₀ two_ne, zpow_natCast]

/-- No representable value lies strictly between `s - g` and `s`. -/
theorem NormAt.below {p : Nat} {emin : Int} {s g : ℚ} (h : NormAt p emin s g) (hp : 1 ≤ p)
    {f : ℚ} (hf : IsRep p emin f) (hlt : f < s) : f ≤ s - g := by
  obtain ⟨m, k, rfl, rfl, hk, hm0, hm, hn⟩ := h
  have hq : (0 : ℚ) < (2 : ℚ) ^ k := zpow_pos (by norm_num) k
  rcases isRep_grid_or_small p hp emin f hf k with ⟨j, rfl⟩ | ⟨hk2, hsmall⟩
  · have h1 : (j : ℚ) < m := lt_of_mul_lt_mul_right hlt hq.le
    have h2 : j < m := by exact_mod_cast h1
    have h3 : (j : ℚ) ≤ (m : ℚ) - 1 := by
      have : j ≤ m - 1 := by omega
      exact_mod_cast this
    nlinarith
  · have hbig : (2 : Int) ^ (p - 1) < m := by
      rcases hn with h | h
      · exact h
      · omega
    have h3 : (((2 : Int) ^ (p - 1) : Int) : ℚ) ≤ (m : ℚ) - 1 := by
      have : (2 : Int) ^ (p - 1) ≤ m - 1 := by omega
      exact_mod_cast this
    have := (abs_le.mp hsmall).2
    nlinarith

/-- No representable value lies strictly between `s` and `s + g`. -/
theorem NormAt.above {p : Nat} {emin : Int} {s g : ℚ} (h : NormAt p emin s g) (hp : 1 ≤ p)
    {f : ℚ} (hf : IsRep p emin f) (hlt : s < f) : s + g ≤ f := by
  obtain ⟨m, k, rfl, rfl, hk, hm0, hm, hn⟩ := h
  have hq : (0 : ℚ) < (2 : ℚ) ^ k := zpow_pos (by norm_num) k
  rcases isRep_grid_or_small p hp emin f hf k with ⟨j, rfl⟩ | ⟨hk2, hsmall⟩
  · have h1 : (m : ℚ) < j := lt_of_mul_lt_mul_right hlt hq.le
    have h2 : m < j := by exact_mod_cast h1
    have h3 : (m : ℚ) + 1 ≤ (j : ℚ) := by
      have : m + 1 ≤ j := by omega
      exact_mod_cast this
    nlinarith
  · exfalso
    have hbig : (2 : Int) ^ (p - 1) < m := by
      rcases hn with h | h
      · exact h
      · omega
    have h3 : (((2 : Int) ^ (p - 1) : Int) : ℚ) < (m : ℚ) := by exact_mod_cast hbig
    have := (abs_le.mp hsmall).2
    nlinarith

/-- Rounding a value of `[0, s]` moves it by at most `g / 2`. -/
theorem NormAt.round_error {p : Nat} {emin : Int} {s g : ℚ} (h : NormAt p emin s g)
    (hp : 1 ≤ p) {x : ℚ} (h0 : 0 ≤ x) (h1 : x ≤ s) : |roundTo p emin x - x| ≤ g / 2 := by
  obtain ⟨m, k, rfl, rfl, hk, hm0, hm, hn⟩ := h
  have hq : (0 : ℚ) < (2 : ℚ) ^ k := zpow_pos (by norm_num) k
  have hr := abs_sub_round (x / (2 : ℚ) ^ k)
  have ht0 : 0 ≤ x / (2 : ℚ) ^ k := div_nonneg h0 hq.le
  have ht1 : x / (2 : ℚ) ^ k ≤ m := by rw [div_le_iff₀ hq]; exact h1
  have hj0 : 0 ≤ round (x / (2 : ℚ) ^ k) := by
    by_contra hc
    have : round (x / (2 : ℚ) ^ k) ≤ -1 := by omega
    have h2 : ((round (x / (2 : ℚ) ^ k) : Int) : ℚ) ≤ -1 := by exact_mod_cast this
    have := (abs_le.mp hr).2
    linarith
  have hj1 : round (x / (2 : ℚ) ^ k) ≤ m := by
    by_contra hc
    have : m + 1 ≤ round (x / (2 : ℚ) ^ k) := by omega
    have h2 : (m : ℚ) + 1 ≤ ((round (x / (2 : ℚ) ^ k) : Int) : ℚ) := by exact_mod_cast this
    have := (abs_le.mp hr).1
    linarith
  have hrep : IsRep p emin (((round (x / (2 : ℚ) ^ k) : Int) : ℚ) * (2 : ℚ) ^ k) :=
    ⟨round (x / (2 : ℚ) ^ k), k, by rw [abs_of_nonneg hj0]; omega, hk, rfl⟩
  refine le_trans (roundTo_nearest p hp emin x _ hrep) ?_
  have e : ((round (x / (2 : ℚ) ^ k) : Int) : ℚ) * (2 : ℚ) ^ k - x =
      -(x / (2 : ℚ) ^ k - ((round (x / (2 : ℚ) ^ k) : Int) : ℚ)) * (2 : ℚ) ^ k := by
    rw [neg_mul, sub_mul, div_mul_cancel₀ _ hq.ne']
    ring
  rw [e, abs_mul, abs_neg, abs_of_pos hq]
  calc |x / (2 : ℚ) ^ k - ((round (x / (2 : ℚ) ^ k) : Int) : ℚ)| * (2 : ℚ) ^ k
      ≤ 1 / 2 * (2 : ℚ) ^ k := mul_le_mul_of_nonneg_right hr hq.le
    _ = (2 : ℚ) ^ k / 2 := by ring

/-- A value above `s - g / 2` rounds to at least `s`. -/
theorem NormAt.round_ge {p : Nat} {emin : Int} {s g : ℚ} (h : NormAt p emin s g)
    (hp : 1 ≤ p) {y : ℚ} (hy : s - g / 2 < y) : s ≤ roundTo p emin y := by
  by_contra hc
  have hlt : roundTo p emin y < s := not_le.mp hc
  have hb := h.below hp (roundTo_isRep p emin y) hlt
  rcases le_or_lt s y with hsy | hsy
  · have := roundTo_mono p hp emin hsy
    rw [roundTo_of_isRep p hp emin s h.isRep] at this
    linarith
  · have hn := roundTo_nearest p hp emin y s h.isRep
    rw [abs_of_pos (by linarith : 0 < s - y)] at hn
    have := (abs_le.mp hn).1
    linarith

/-- A value below `s + g / 2` rounds to at most `s`. -/
theorem NormAt.round_le {p : Nat} {emin : Int} {s g : ℚ} (h : NormAt p emin s g)
    (hp : 1 ≤ p) {y : ℚ} (hy : y < s + g / 2) : roundTo p emin y ≤ s := by
  by_contra hc
  have hlt : s < roundTo p emin y := not_le.mp hc
  have hb := h.above hp (roundTo_isRep p emin y) hlt
  rcases le_or_lt y s with hsy | hsy
  · have := roundTo_mono p hp emin hsy
    rw [roundTo_of_isRep p hp emin s h.isRep] at this
    linarith
  · have hn := roundTo_nearest p hp emin y s h.isRep
    rw [abs_of_neg (by linarith : s - y < 0)] at hn
    have := (abs_le.mp hn).2
    linarith

/-! ## Lemmas on the smoothing step -/

theorem sim_A_f32_eq : sim_A_f32 = .finite simA := by decide!

theorem sim_B_f32_eq : sim_B_f32 = .finite simB := by decide!

theorem cmdCheck_all : (List.range 256).all (fun c => c == 0 || cmdCheck c) = true := by
  decide!

theorem simA_add_simB : simA + simB = 1 := by norm_num [simA, simB]

theorem simA_pos : 0 < simA := by norm_num [simA]

theorem simB_pos : 0 < simB := by norm_num [simB]

theorem isRep_int (n : Int) (h : |n| ≤ 2 ^ 24) : IsRep 24 (-126) (n : ℚ) :=
  ⟨n, 0, h, by norm_num, by simp⟩

theorem roundTo_nonneg (p : Nat) (hp : 1 ≤ p) (emin : Int) {x : ℚ} (h : 0 ≤ x) :
    0 ≤ roundTo p emin x := by
  have := roundTo_mono p hp emin h
  rwa [roundTo_zero] at this

theorem roundTo_le_int {x : ℚ} (n : Int) (hn : |n| ≤ 2 ^ 24) (h : x ≤ n) :
    roundTo 24 (-126) x ≤ n := by
  have := roundTo_mono 24 (by norm_num) (-126) h
  rwa [roundTo_of_isRep 24 (by norm_num) (-126) _ (isRep_int n hn)] at this

theorem roundTo_ge_int {x : ℚ} (n : Int) (hn : |n| ≤ 2 ^ 24) (h : (n : ℚ) ≤ x) :
    (n : ℚ) ≤ roundTo 24 (-126) x := by
  have := roundTo_mono 24 (by norm_num) (-126) h
  rwa [roundTo_of_isRep 24 (by norm_num) (-126) _ (isRep_int n hn)] at this

theorem R32_finite {x : ℚ} (h : |roundTo 24 (-126) x| ≤ 16777216) :
    R32 x = .finite (roundTo 24 (-126) x) := by
  unfold R32 roundBin
  simp only
  rw [if_neg]
  rw [not_le]
  have e : (127 + 1 : Int).toNat = 128 := rfl
  rw [e]
  refine lt_of_le_of_lt h ?_
  norm_num

theorem R32_of_range {x : ℚ} (h0 : 0 ≤ x) (h1 : x ≤ 256) :
    R32 x = .finite (roundTo 24 (-126) x) ∧ 0 ≤ roundTo 24 (-126) x ∧
      roundTo 24 (-126) x ≤ 256 := by
  have a := roundTo_nonneg 24 (by norm_num) (-126) h0
  have b : roundTo 24 (-126) x ≤ ((256 : Int) : ℚ) :=
    roundTo_le_int 256 (by norm_num) (by push_cast; exact h1)
  push_cast at b
  refine ⟨R32_finite ?_, a, b⟩
  rw [abs_of_nonneg a]
  linarith

theorem intToFloat_of_range {c : Int} (h0 : 0 ≤ c) (h1 : c ≤ 255) :
    intToFloat c = .finite (c : ℚ) := by
  have hc : |c| ≤ 2 ^ 24 := by rw [abs_of_nonneg h0]; omega
  have h0Q : (0 : ℚ) ≤ c := by exact_mod_cast h0
  have h1Q : (c : ℚ) ≤ 255 := by exact_mod_cast h1
  unfold intToFloat
  rw [(R32_of_range h0Q (by linarith)).1,
    roundTo_of_isRep 24 (by norm_num) (-126) _ (isRep_int c hc)]

/-- Bounds on the two rounded products of the smoothing expression. -/
theorem smoothQ_parts {s c : ℚ} (hs0 : 0 ≤ s) (hs1 : s ≤ 255) (hc0 : 0 ≤ c) (hc1 : c ≤ 255) :
    0 ≤ s * simA ∧ s * simA ≤ 230 ∧ 0 ≤ c * simB ∧ c * simB ≤ 26 ∧
    0 ≤ roundTo 24 (-126) (s * simA) ∧ roundTo 24 (-126) (s * simA) ≤ 230 ∧
    0 ≤ roundTo 24 (-126) (c * simB) ∧ roundTo 24 (-126) (c * simB) ≤ 26 := by
  have a0 : 0 ≤ s * simA := mul_nonneg hs0 simA_pos.le
  have a1 : s * simA ≤ 230 := by
    have : s * simA ≤ 255 * simA := mul_le_mul_of_nonneg_right hs1 simA_pos.le
    have : (255 : ℚ) * simA ≤ 230 := by norm_num [simA]
    linarith
  have b0 : 0 ≤ c * simB := mul_nonneg hc0 simB_pos.le
  have b1 : c * simB ≤ 26 := by
    have : c * simB ≤ 255 * simB := mul_le_mul_of_nonneg_right hc1 simB_pos.le
    have : (255 : ℚ) * simB ≤ 26 := by norm_num [simB]
    linarith
  have ra := roundTo_le_int (x := s * simA) 230 (by norm_num) (by push_cast; exact a1)
  have rb := roundTo_le_int (x := c * simB) 26 (by norm_num) (by push_cast; exact b1)
  push_cast at ra rb
  exact ⟨a0, a1, b0, b1, roundTo_nonneg 24 (by norm_num) (-126) a0, ra,
    roundTo_nonneg 24 (by norm_num) (-126) b0, rb⟩

theorem smoothing_f32_eq (fc : Contraction) {s : ℚ} {c : Int} (hs0 : 0 ≤ s) (hs1 : s ≤ 255)
    (hc0 : 0 ≤ c) (hc1 : c ≤ 255) :
    smoothing_f32 fc (.finite s) c = .finite (smoothQ fc s (c : ℚ)) := by
  have h0Q : (0 : ℚ) ≤ c := by exact_mod_cast hc0
  have h1Q : (c : ℚ) ≤ 255 := by exact_mod_cast hc1
  obtain ⟨a0, a1, b0, b1, ra0, ra1, rb0, rb1⟩ := smoothQ_parts hs0 hs1 h0Q h1Q
  have eA := (R32_of_range a0 (by linarith)).1
  have eB := (R32_of_range b0 (by linarith)).1
  unfold smoothing_f32 smoothQ
  rw [sim_A_f32_eq, sim_B_f32_eq, intToFloat_of_range hc0 hc1]
  cases fc
  · simp only [add32, mul32, FloatVal.mulExact, FloatVal.addExact, FloatVal.round, eA, eB]
    exact (R32_of_range (by linarith) (by linarith)).1
  · simp only [fma32, mul32, FloatVal.mulExact, FloatVal.addExact, FloatVal.round, eB]
    exact (R32_of_range (by linarith) (by linarith)).1
  · simp only [fma32, mul32, FloatVal.mulExact, FloatVal.addExact, FloatVal.round, eA]
    exact (R32_of_range (by linarith) (by linarith)).1

theorem smoothQ_isRep (fc : Contraction) (s c : ℚ) : IsRep 24 (-126) (smoothQ fc s c) := by
  cases fc <;> exact roundTo_isRep _ _ _

theorem smoothQ_mono (fc : Contraction) {s t : ℚ} (h : s ≤ t) (c : ℚ) :
    smoothQ fc s c ≤ smoothQ fc t c := by
  have hA : s * simA ≤ t * simA := mul_le_mul_of_nonneg_right h simA_pos.le
  have hR := roundTo_mono 24 (by norm_num) (-126) hA
  cases fc
  · exact roundTo_mono 24 (by norm_num) (-126) (by linarith)
  · exact roundTo_mono 24 (by norm_num) (-126) (by linarith)
  · exact roundTo_mono 24 (by norm_num) (-126) (by linarith)

theorem smoothQ_nonneg (fc : Contraction) {s c : ℚ} (hs : 0 ≤ s) (hc : 0 ≤ c) :
    0 ≤ smoothQ fc s c := by
  have a0 : 0 ≤ s * simA := mul_nonneg hs simA_pos.le
  have b0 : 0 ≤ c * simB := mul_nonneg hc simB_pos.le
  have ra := roundTo_nonneg 24 (by norm_num) (-126) a0
  have rb := roundTo_nonneg 24 (by norm_num) (-126) b0
  cases fc
  · exact roundTo_nonneg 24 (by norm_num) (-126) (by linarith)
  · exact roundTo_nonneg 24 (by norm_num) (-126) (by linarith)
  · exact roundTo_nonneg 24 (by norm_num) (-126) (by linarith)

/-- The checked facts about a command `c` in 1..255. -/
theorem cmd_facts (c : Nat) (h1 : 1 ≤ c) (h2 : c ≤ 255) :
    NormAt 24 (-126) (c : ℚ) (1 / 2 ^ cmdGapExp c) ∧
    |roundTo 24 (-126) ((c : ℚ) * simB) - (c : ℚ) * simB| < simB * (1 / 2 ^ cmdGapExp c) ∧
    ∀ fc, smoothQ fc c c = c := by
  have hall := cmdCheck_all
  rw [List.all_eq_true] at hall
  have hc := hall c (List.mem_range.mpr (by omega))
  have hne : (c == 0) = false := by simpa using (by omega : c ≠ 0)
  rw [hne, Bool.false_or] at hc
  unfold cmdCheck at hc
  obtain ⟨n1, n2, he, f1, f2, f3⟩ := of_decide_eq_true hc
  have hj : cmdGapExp c ≤ 24 := by unfold cmdGapExp; omega
  have hpow : (0 : ℚ) < 2 ^ cmdGapExp c := by positivity
  refine ⟨⟨(c * 2 ^ cmdGapExp c : Nat), -(cmdGapExp c : Int), ?_, ?_, by omega, ?_, ?_, ?_⟩,
    ?_, ?_⟩
  · rw [zpow_neg, zpow_natCast]
    push_cast
    field_simp
  · rw [zpow_neg, zpow_natCast, one_div]
  · have : 0 < c * 2 ^ cmdGapExp c := Nat.mul_pos (by omega) (by positivity)
    exact_mod_cast this
  · exact_mod_cast n2
  · left
    exact_mod_cast n1
  · rw [mul_one_div, lt_div_iff₀ hpow]
    exact he
  · intro fc
    cases fc
    · exact f1
    · exact f2
    · exact f3

/-- Under a command `c` in 1..255 the new speed lies between the old speed and
the command, for every `float` speed `s ≥ 0` and every way of contracting. -/
theorem smoothQ_between (fc : Contraction) {s : ℚ} (hs : IsRep 24 (-126) s) (h0 : 0 ≤ s)
    (c : Nat) (hc1 : 1 ≤ c) (hc2 : c ≤ 255) :
    min s (c : ℚ) ≤ smoothQ fc s c ∧ smoothQ fc s c ≤ max s (c : ℚ) := by
  obtain ⟨hn, he, hfix⟩ := cmd_facts c hc1 hc2
  have hp : 1 ≤ 24 := by norm_num
  have hAB := simA_add_simB
  have hcQ : (0 : ℚ) ≤ c := by positivity
  have esplit : s * simA + s * simB = s := by rw [← mul_add, hAB, mul_one]
  obtain ⟨eb1, eb2⟩ := abs_lt.mp he
  rcases lt_trichotomy s (c : ℚ) with hlt | heq | hgt
  · rw [min_eq_left hlt.le, max_eq_right hlt.le]
    refine ⟨?_, ?_⟩
    · rcases eq_or_lt_of_le h0 with hz | hpos
      · rw [← hz]; exact smoothQ_nonneg fc le_rfl hcQ
      · obtain ⟨g, hg⟩ := normAt_exists 24 hp (-126) s hs hpos
        have gap := hn.below hp hs hlt
        have hBg : simB * (1 / 2 ^ cmdGapExp c) ≤ (c : ℚ) * simB - s * simB := by
          have := mul_le_mul_of_nonneg_left (by linarith : (1 : ℚ) / 2 ^ cmdGapExp c ≤ c - s)
            simB_pos.le
          linarith
        have ea := abs_le.mp (hg.round_error hp (mul_nonneg h0 simA_pos.le)
          (by nlinarith [simB_pos, mul_nonneg h0 simB_pos.le] : s * simA ≤ s))
        have hgpos := hg.pos
        cases fc
        · exact hg.round_ge hp (by linarith)
        · exact hg.round_ge hp (by linarith)
        · exact hg.round_ge hp (by linarith)
    · have := smoothQ_mono fc hlt.le (c : ℚ)
      rwa [hfix fc] at this
  · rw [heq, min_self, max_self, hfix fc]
    exact ⟨le_rfl, le_rfl⟩
  · rw [min_eq_right hgt.le, max_eq_left hgt.le]
    refine ⟨?_, ?_⟩
    · have := smoothQ_mono fc hgt.le (c : ℚ)
      rwa [hfix fc] at this
    · have hpos : 0 < s := lt_of_le_of_lt hcQ hgt
      obtain ⟨g, hg⟩ := normAt_exists 24 hp (-126) s hs hpos
      have gap := hn.above hp hs hgt
      have hBg : simB * (1 / 2 ^ cmdGapExp c) ≤ s * simB - (c : ℚ) * simB := by
        have := mul_le_mul_of_nonneg_left (by linarith : (1 : ℚ) / 2 ^ cmdGapExp c ≤ s - c)
          simB_pos.le
        linarith
      have ea := abs_le.mp (hg.round_error hp (mul_nonneg h0 simA_pos.le)
        (by nlinarith [simB_pos, mul_nonneg h0 simB_pos.le] : s * simA ≤ s))
      have hgpos := hg.pos
      cases fc
      · exact hg.round_le hp (by linarith)
      · exact hg.round_le hp (by linarith)
      · exact hg.round_le hp (by linarith)

/-- A rational that `R32` leaves unchanged is representable in `float`. -/
theorem isRep_of_R32 {s : ℚ} (h : R32 s = .finite s) : IsRep 24 (-126) s := by
  unfold R32 roundBin at h
  simp only at h
  split_ifs at h with h1 h2
  · have e : roundTo 24 (-126) s = s := by simpa using h
    rw [← e]
    exact roundTo_isRep _ _ _

theorem R32_of_isRep {s : ℚ} (h : IsRep 24 (-126) s) (h0 : 0 ≤ s) (h1 : s ≤ 256) :
    R32 s = .finite s := by
  rw [(R32_of_range h0 h1).1, roundTo_of_isRep 24 (by norm_num) (-126) s h]

theorem smoothQ_between_int (fc : Contraction) {s : ℚ} (hs : IsRep 24 (-126) s) (h0 : 0 ≤ s)
    {c : Int} (hc1 : 1 ≤ c) (hc2 : c ≤ 255) :
    min s (c : ℚ) ≤ smoothQ fc s c ∧ smoothQ fc s c ≤ max s (c : ℚ) := by
  have e : ((c.toNat : Nat) : ℚ) = (c : ℚ) := by
    have : ((c.toNat : Nat) : Int) = c := Int.toNat_of_nonneg (by omega)
    exact_mod_cast this
  have := smoothQ_between fc hs h0 c.toNat (by omega) (by omega)
  rwa [e] at this

/-- The smoothing step in `float` arithmetic, for a `float` speed in `[0, 255]`
and a command in 1..255: the result is a `float` between the old speed and the
command, and its conversion to `uint32_t` is defined. -/
theorem smoothing_f32_range (fc : Contraction) {s : ℚ} (hs : IsRep 24 (-126) s)
    (hs0 : 0 ≤ s) (hs1 : s ≤ 255) {c : Int} (hc1 : 1 ≤ c) (hc2 : c ≤ 255) :
    smoothing_f32 fc (.finite s) c = .finite (smoothQ fc s c) ∧
    IsRep 24 (-126) (smoothQ fc s c) ∧
    0 ≤ smoothQ fc s c ∧ smoothQ fc s c ≤ 255 ∧
    min s (c : ℚ) ≤ smoothQ fc s c ∧ smoothQ fc s c ≤ max s (c : ℚ) ∧
    ∃ d : Nat, castUInt32 (.finite (smoothQ fc s c)) = some d ∧
      (d : Int) = truncToZero (smoothQ fc s c) ∧ d ≤ 255 := by
  have hcQ1 : (1 : ℚ) ≤ c := by exact_mod_cast hc1
  have hcQ2 : (c : ℚ) ≤ 255 := by exact_mod_cast hc2
  obtain ⟨b1, b2⟩ := smoothQ_between_int fc hs hs0 hc1 hc2
  have l0 : 0 ≤ smoothQ fc s c := le_trans (le_min hs0 (by linarith)) b1
  have l1 : smoothQ fc s c ≤ 255 := le_trans b2 (max_le hs1 hcQ2)
  exact ⟨smoothing_f32_eq fc hs0 hs1 (by omega) hc2, smoothQ_isRep fc s c, l0, l1, b1, b2,
    toUInt32_of_range l0 l1⟩

/-- One pass of `task_RS_Motor1` in `float` arithmetic from a `float` speed in
`[0, 255]` with a command in `[0, 255]`. -/
theorem task_RS_Motor1_tick_f32_range (fc : Contraction) {s : ℚ} (sh : Shares)
    (hs : IsRep 24 (-126) s) (hs0 : 0 ≤ s) (hs1 : s ≤ 255)
    (hc0 : 0 ≤ sh.M1_duty_cycle) (hc1 : sh.M1_duty_cycle ≤ 255) :
    ∃ (t : ℚ) (d : Nat),
      task_RS_Motor1_tick_f32 fc (.finite s) sh =
        ⟨.finite t, [⟨some d, if sh.M1_duty_cycle = 0 then true else sh.turn⟩]⟩ ∧
      IsRep 24 (-126) t ∧ 0 ≤ t ∧ t ≤ 255 ∧
      (sh.M1_duty_cycle = 0 → t = 0) ∧
      (sh.M1_duty_cycle ≠ 0 → t = smoothQ fc s sh.M1_duty_cycle ∧
        min s (sh.M1_duty_cycle : ℚ) ≤ t ∧ t ≤ max s (sh.M1_duty_cycle : ℚ)) ∧
      (d : Int) = truncToZero t ∧ d ≤ 255 := by
  by_cases h : sh.M1_duty_cycle = 0
  · refine ⟨0, 0, ?_, isRep_int 0 (by norm_num), le_rfl, by norm_num, fun _ => rfl,
      fun hne => absurd h hne, by simp [truncToZero], by norm_num⟩
    simp [task_RS_Motor1_tick_f32, h, castUInt32, toUInt32_zero]
  · obtain ⟨e, r, l0, l1, b1, b2, d, hd, ht, hd2⟩ :=
      smoothing_f32_range fc hs hs0 hs1 (c := sh.M1_duty_cycle) (by omega) hc1
    refine ⟨smoothQ fc s sh.M1_duty_cycle, d, ?_, r, l0, l1, fun h0 => absurd h0 h,
      fun _ => ⟨rfl, b1, b2⟩, ht, hd2⟩
    simp only [task_RS_Motor1_tick_f32, h, if_false, e, hd]

/-- One pass of `task_RS_Motor2` in `float` arithmetic from a `float` speed in
`[0, 255]` with a command in `[0, 255]`. -/
theorem task_RS_Motor2_tick_f32_range (fc : Contraction) {s : ℚ} (sh : Shares)
    (hs : IsRep 24 (-126) s) (hs0 : 0 ≤ s) (hs1 : s ≤ 255)
    (hc0 : 0 ≤ sh.M2_duty_cycle) (hc1 : sh.M2_duty_cycle ≤ 255) :
    ∃ (t : ℚ) (d : Nat),
      task_RS_Motor2_tick_f32 fc (.finite s) sh = ⟨.finite t, [⟨some d, true⟩]⟩ ∧
      IsRep 24 (-126) t ∧ 0 ≤ t ∧ t ≤ 255 ∧
      (sh.M2_duty_cycle = 0 → t = 0) ∧
      (sh.M2_duty_cycle ≠ 0 → t = smoothQ fc s sh.M2_duty_cycle ∧
        min s (sh.M2_duty_cycle : ℚ) ≤ t ∧ t ≤ max s (sh.M2_duty_cycle : ℚ)) ∧
      (d : Int) = truncToZero t ∧ d ≤ 255 := by
  by_cases h : sh.M2_duty_cycle = 0
  · refine ⟨0, 0, ?_, isRep_int 0 (by norm_num), le_rfl, by norm_num, fun _ => rfl,
      fun hne => absurd h hne, by simp [truncToZero], by norm_num⟩
    simp [task_RS_Motor2_tick_f32, h, castUInt32, toUInt32_zero]
  · obtain ⟨e, r, l0, l1, b1, b2, d, hd, ht, hd2⟩ :=
      smoothing_f32_range fc hs hs0 hs1 (c := sh.M2_duty_cycle) (by omega) hc1
    refine ⟨smoothQ fc s sh.M2_duty_cycle, d, ?_, r, l0, l1, fun h0 => absurd h0 h,
      fun _ => ⟨rfl, b1, b2⟩, ht, hd2⟩
    simp only [task_RS_Motor2_tick_f32, h, if_false, e, hd]

/-- Invariant of the passes of `task_RS_Motor1` in `float` arithmetic: started
from a `float` in `[0, 255]` and fed commands in `[0, 255]`, the speed is a
`float` in `[0, 255]` after every number of passes. -/
theorem task_RS_Motor1_speed_f32_range (fc : Contraction) {s0 : ℚ} (hs : IsRep 24 (-126) s0)
    (hs0 : 0 ≤ s0) (hs1 : s0 ≤ 255) (snaps : Nat → Shares)
    (hc : ∀ i, 0 ≤ (snaps i).M1_duty_cycle ∧ (snaps i).M1_duty_cycle ≤ 255) (n : Nat) :
    ∃ t : ℚ, task_RS_Motor1_speed_f32 fc (.finite s0) snaps n = .finite t ∧
      IsRep 24 (-126) t ∧ 0 ≤ t ∧ t ≤ 255 := by
  induction n with
  | zero => exact ⟨s0, rfl, hs, hs0, hs1⟩
  | succ n ih =>
    obtain ⟨t, e, r, l0, l1⟩ := ih
    obtain ⟨t2, d, e2, r2, m0, m1, _⟩ :=
      task_RS_Motor1_tick_f32_range fc (snaps n) r l0 l1 (hc n).1 (hc n).2
    exact ⟨t2, by simp only [task_RS_Motor1_speed_f32, e, e2], r2, m0, m1⟩

theorem task_RS_Motor2_speed_f32_range (fc : Contraction) {s0 : ℚ} (hs : IsRep 24 (-126) s0)
    (hs0 : 0 ≤ s0) (hs1 : s0 ≤ 255) (snaps : Nat → Shares)
    (hc : ∀ i, 0 ≤ (snaps i).M2_duty_cycle ∧ (snaps i).M2_duty_cycle ≤ 255) (n : Nat) :
    ∃ t : ℚ, task_RS_Motor2_speed_f32 fc (.finite s0) snaps n = .finite t ∧
      IsRep 24 (-126) t ∧ 0 ≤ t ∧ t ≤ 255 := by
  induction n with
  | zero => exact ⟨s0, rfl, hs, hs0, hs1⟩
  | succ n ih =>
    obtain ⟨t, e, r, l0, l1⟩ := ih
    obtain ⟨t2, d, e2, r2, m0, m1, _⟩ :=
      task_RS_Motor2_tick_f32_range fc (snaps n) r l0 l1 (hc n).1 (hc n).2
    exact ⟨t2, by simp only [task_RS_Motor2_speed_f32, e, e2], r2, m0, m1⟩

theorem normAt_256 : NormAt 24 (-126) 256 (1 / 65536) :=
  ⟨2 ^ 24, -16, by norm_num, by norm_num, by norm_num, by norm_num, le_refl _,
    Or.inl (by norm_num)⟩

/-- Rounding a value of `[0, 256]` to `float` moves it by at most `2 ^ (-17)`. -/
theorem roundTo_error_256 {x : ℚ} (h0 : 0 ≤ x) (h1 : x ≤ 256) :
    |roundTo 24 (-126) x - x| ≤ 1 / 131072 := by
  have := normAt_256.round_error (by norm_num) h0 h1
  linarith

/-- The smoothing step in `float` arithmetic differs from the exact value of
`s * sim_A + c * sim_B` by at most three roundings. -/
theorem smoothQ_error (fc : Contraction) {s c : ℚ} (hs0 : 0 ≤ s) (hs1 : s ≤ 255)
    (hc0 : 0 ≤ c) (hc1 : c ≤ 255) :
    |smoothQ fc s c - (s * simA + c * simB)| ≤ 3 / 131072 := by
  obtain ⟨a0, a1, b0, b1, ra0, ra1, rb0, rb1⟩ := smoothQ_parts hs0 hs1 hc0 hc1
  have ea := abs_le.mp (roundTo_error_256 a0 (by linarith))
  have eb := abs_le.mp (roundTo_error_256 b0 (by linarith))
  cases fc
  · have er := abs_le.mp (roundTo_error_256
      (x := roundTo 24 (-126) (s * simA) + roundTo 24 (-126) (c * simB))
      (by linarith) (by linarith))
    rw [abs_le]
    simp only [smoothQ]
    constructor <;> linarith [er.1, er.2, ea.1, ea.2, eb.1, eb.2]
  · have er := abs_le.mp (roundTo_error_256
      (x := s * simA + roundTo 24 (-126) (c * simB)) (by linarith) (by linarith))
    rw [abs_le]
    simp only [smoothQ]
    constructor <;> linarith [er.1, er.2, ea.1, ea.2, eb.1, eb.2]
  · have er := abs_le.mp (roundTo_error_256
      (x := c * simB + roundTo 24 (-126) (s * simA)) (by linarith) (by linarith))
    rw [abs_le]
    simp only [smoothQ]
    constructor <;> linarith [er.1, er.2, ea.1, ea.2, eb.1, eb.2]

/-- The smoothing step in `float` arithmetic is within `2 ^ (-15)` of the
value `(9/10) * s + (1/10) * c` of exact arithmetic. -/
theorem smoothQ_near_ideal (fc : Contraction) {s c : ℚ} (hs0 : 0 ≤ s) (hs1 : s ≤ 255)
    (hc0 : 0 ≤ c) (hc1 : c ≤ 255) :
    |smoothQ fc s c - ((9 / 10) * s + (1 / 10) * c)| ≤ 1 / 32768 := by
  have h := abs_le.mp (smoothQ_error fc hs0 hs1 hc0 hc1)
  have e : s * simA + c * simB = (9 / 10) * s + (1 / 10) * c + (c - s) / 41943040 := by
    simp only [simA, simB]; ring
  rw [abs_le]
  constructor <;> linarith [h.1, h.2]

/-- A defined duty is the truncation toward zero of a finite speed. -/
theorem castUInt32_some {v : FloatVal} {d : Nat} (h : castUInt32 v = some d) :
    ∃ t : ℚ, v = .finite t ∧ (d : Int) = truncToZero t := by
  cases v with
  | finite q => exact ⟨q, rfl, (toUInt32_some h).2.2⟩
  | posInf => simp [castUInt32] at h
  | negInf => simp [castUInt32] at h
  | nan => simp [castUInt32] at h

/-- The passes in `float` arithmetic and the passes in exact arithmetic agree
in the zero-command branch and in the direction handed to `runMotor`. -/
theorem motor_tick_f32_agrees (fc : Contraction) (v : FloatVal) (s : ℚ) (sh : Shares) :
    (task_RS_Motor1_tick_f32 fc v sh).calls.map RunMotorCall.clockwise =
      (task_RS_Motor1_tick s sh).calls.map RunMotorCall.clockwise ∧
    (task_RS_Motor2_tick_f32 fc v sh).calls.map RunMotorCall.clockwise =
      (task_RS_Motor2_tick s sh).calls.map RunMotorCall.clockwise ∧
    (sh.M1_duty_cycle = 0 →
      task_RS_Motor1_tick_f32 fc v sh = ⟨.finite 0, [⟨some 0, true⟩]⟩ ∧
      task_RS_Motor1_tick s sh = ⟨0, [⟨some 0, true⟩]⟩) ∧
    (sh.M2_duty_cycle = 0 →
      task_RS_Motor2_tick_f32 fc v sh = ⟨.finite 0, [⟨some 0, true⟩]⟩ ∧
      task_RS_Motor2_tick s sh = ⟨0, [⟨some 0, true⟩]⟩) := by
  refine ⟨?_, ?_, ?_, ?_⟩
  · by_cases h : sh.M1_duty_cycle = 0 <;>
      simp [task_RS_Motor1_tick_f32, task_RS_Motor1_tick, h]
  · simp [task_RS_Motor2_tick_f32, task_RS_Motor2_tick]
  · intro h
    simp [task_RS_Motor1_tick_f32, task_RS_Motor1_tick, h, castUInt32, toUInt32_zero]
  · intro h
    simp [task_RS_Motor2_tick_f32, task_RS_Motor2_tick, h, castUInt32, toUInt32_zero]

/-- The duties of the first pass from the speeds 1000 and 0 under the commands
255 and 200, in `float` arithmetic. -/
theorem motor_tick_f32_examples (fc : Contraction) :
    (task_RS_Motor1_tick_f32 fc (.finite 1000)
      ⟨.finite 100, .finite 100, 255, 255, false⟩).calls = [⟨some 925, false⟩] ∧
    (task_RS_Motor1_tick_f32 fc (.finite 0)
      ⟨.finite 100, .finite 100, 255, 255, false⟩).calls = [⟨some 25, false⟩] ∧
    (task_RS_Motor2_tick_f32 fc (.finite 1000)
      ⟨.finite 100, .finite 100, 255, 255, false⟩).calls = [⟨some 925, true⟩] ∧
    (task_RS_Motor2_tick_f32 fc (.finite 0)
      ⟨.finite 100, .finite 100, 255, 255, false⟩).calls = [⟨some 25, true⟩] ∧
    (task_RS_Motor1_tick_f32 fc (.finite 0)
      ⟨.finite 30, .finite 10, 200, 200, true⟩).calls = [⟨some 20, true⟩] := by
  cases fc <;> decide!

/-! ## Lemmas on the sensor task -/

theorem R64_finite {x : ℚ} (h : |roundTo 53 (-1022) x| ≤ 4294967296) :
    R64 x = .finite (roundTo 53 (-1022) x) := by
  unfold R64 roundBin
  simp only
  rw [if_neg]
  rw [not_le]
  refine lt_of_le_of_lt h ?_
  obtain ⟨n, hn, hlt⟩ : ∃ n, (1023 + 1 : Int).toNat = n ∧ 32 < n := ⟨_, rfl, by decide⟩
  rw [hn, Nat.cast_pow]
  calc (4294967296 : ℚ) = ((2 : Nat) : ℚ) ^ 32 := by norm_num
    _ < ((2 : Nat) : ℚ) ^ n := pow_lt_pow_right₀ (by norm_num) hlt

/-- Rounding to `double` keeps a value between two representable bounds. -/
theorem roundTo_mem_Icc (p : Nat) (hp : 1 ≤ p) (emin : Int) {a b x : ℚ}
    (ha : IsRep p emin a) (hb : IsRep p emin b) (h1 : a ≤ x) (h2 : x ≤ b) :
    a ≤ roundTo p emin x ∧ roundTo p emin x ≤ b := by
  have m1 := roundTo_mono p hp emin h1
  have m2 := roundTo_mono p hp emin h2
  rw [roundTo_of_isRep p hp emin a ha] at m1
  rw [roundTo_of_isRep p hp emin b hb] at m2
  exact ⟨m1, m2⟩

theorem sub64_finite (a b : ℚ) : sub64 (.finite a) (.finite b) = R64 (a + -b) := rfl

theorem div64_finite (a : ℚ) {b : ℚ} (h : b ≠ 0) :
    div64 (.finite a) (.finite b) = R64 (a / b) := by
  simp [div64, FloatVal.divExact, FloatVal.round, h]

theorem isRep64_int (n : Int) (h : |n| ≤ 2 ^ 53) : IsRep 53 (-1022) (n : ℚ) :=
  ⟨n, 0, h, by norm_num, by simp⟩

theorem isRep64_sixteenth : IsRep 53 (-1022) (1 / 16 : ℚ) :=
  ⟨1, -4, by norm_num, by norm_num, by norm_num⟩

theorem isRep64_neg_sixteenth : IsRep 53 (-1022) (-(1 / 16) : ℚ) :=
  ⟨-1, -4, by norm_num, by norm_num, by norm_num⟩

theorem R64_ir_numerator :
    R64 (52698 / 10) = .finite (5794206376053965 / 1099511627776) := by decide!

theorem R64_ir_offset :
    R64 (13688 / 100) = .finite (1204009212879831 / 8796093022208) := by decide!

/-- Truncation toward zero does not leave an interval of integers around 0. -/
theorem truncToZero_abs_le {x : ℚ} {B : Int} (h : |x| ≤ B) :
    |truncToZero x| ≤ B := by
  obtain ⟨h1, h2⟩ := abs_le.mp h
  unfold truncToZero
  split_ifs with h0
  · have a : 0 ≤ ⌊x⌋ := Int.floor_nonneg.mpr h0
    have b : ⌊x⌋ ≤ B := by
      have : ((⌊x⌋ : Int) : ℚ) ≤ B := le_trans (Int.floor_le x) h2
      exact_mod_cast this
    rw [abs_of_nonneg a]; exact b
  · have hneg : x < 0 := lt_of_not_le h0
    have a : ⌈x⌉ ≤ 0 := Int.ceil_le.mpr (by simpa using hneg.le)
    have b : -B ≤ ⌈x⌉ := by
      have : ((-B : Int) : ℚ) ≤ ((⌈x⌉ : Int) : ℚ) := by
        push_cast
        exact le_trans h1 (Int.le_ceil x)
      exact_mod_cast this
    rw [abs_of_nonpos a]; omega

/-- The denominator of line 128 for a reading in the range of `int`: a finite
`double` of magnitude at least 1/16. -/
theorem ir_denominator_finite (r : Int) (h1 : -2147483648 ≤ r) (h2 : r ≤ 2147483647) :
    ∃ den : ℚ, sub64 (intToDouble r) (R64 (13688 / 100)) = .finite den ∧ 1 / 16 ≤ |den| := by
  have hp : 1 ≤ 53 := by norm_num
  have hr : |r| ≤ 2 ^ 53 := by rw [abs_le]; constructor <;> omega
  have hrQ1 : (-2147483648 : ℚ) ≤ r := by exact_mod_cast h1
  have hrQ2 : (r : ℚ) ≤ 2147483647 := by exact_mod_cast h2
  have e1 : intToDouble r = .finite (r : ℚ) := by
    unfold intToDouble
    have e := roundTo_of_isRep 53 hp (-1022) _ (isRep64_int r hr)
    rw [R64_finite (by rw [e, abs_le]; constructor <;> linarith), e]
  have hsub := sub64_finite (r : ℚ) (1204009212879831 / 8796093022208)
  have hdb : |roundTo 53 (-1022) ((r : ℚ) + -(1204009212879831 / 8796093022208))| ≤
      4294967296 := by
    have := roundTo_mem_Icc 53 hp (-1022)
      (a := ((-4294967296 : Int) : ℚ)) (b := ((4294967296 : Int) : ℚ))
      (x := (r : ℚ) + -(1204009212879831 / 8796093022208))
      (isRep64_int _ (by norm_num)) (isRep64_int _ (by norm_num))
      (by push_cast; linarith) (by push_cast; linarith)
    push_cast at this
    rw [abs_le]; exact this
  refine ⟨roundTo 53 (-1022) ((r : ℚ) + -(1204009212879831 / 8796093022208)), ?_, ?_⟩
  · rw [R64_ir_offset, e1, hsub, R64_finite hdb]
  · rcases le_or_lt 137 r with h | h
    · have hq : (137 : ℚ) ≤ r := by exact_mod_cast h
      have := roundTo_mono 53 hp (-1022)
        (show (1 / 16 : ℚ) ≤ (r : ℚ) + -(1204009212879831 / 8796093022208) by linarith)
      rw [roundTo_of_isRep 53 hp (-1022) _ isRep64_sixteenth] at this
      rw [abs_of_nonneg (by linarith)]
      exact this
    · have hq : (r : ℚ) ≤ 136 := by exact_mod_cast (by omega : r ≤ 136)
      have := roundTo_mono 53 hp (-1022)
        (show (r : ℚ) + -(1204009212879831 / 8796093022208) ≤ -(1 / 16 : ℚ) by linarith)
      rw [roundTo_of_isRep 53 hp (-1022) _ isRep64_neg_sixteenth] at this
      rw [abs_of_nonpos (by linarith)]
      linarith

/-- The `double` quotient of line 128 for a denominator of magnitude at least
1/16: a finite `double` of magnitude at most 84320. -/
theorem ir_quotient_finite {den : ℚ} (hd : 1 / 16 ≤ |den|) :
    ∃ q : ℚ, div64 (R64 (52698 / 10)) (.finite den) = .finite q ∧ |q| ≤ 84320 := by
  have hp : 1 ≤ 53 := by norm_num
  have hden0 : den ≠ 0 := by
    intro h0
    rw [h0, abs_zero] at hd
    norm_num at hd
  have hdiv := div64_finite (5794206376053965 / 1099511627776) hden0
  have hqb : |(5794206376053965 / 1099511627776 : ℚ) / den| ≤ 84320 := by
    rw [abs_div, div_le_iff₀ (by linarith), abs_of_pos (by norm_num)]
    nlinarith
  have hqr : |roundTo 53 (-1022) ((5794206376053965 / 1099511627776 : ℚ) / den)| ≤ 84320 := by
    obtain ⟨a, b⟩ := abs_le.mp hqb
    have := roundTo_mem_Icc 53 hp (-1022)
      (a := ((-84320 : Int) : ℚ)) (b := ((84320 : Int) : ℚ))
      (x := (5794206376053965 / 1099511627776 : ℚ) / den)
      (isRep64_int _ (by norm_num)) (isRep64_int _ (by norm_num))
      (by push_cast; exact a) (by push_cast; exact b)
    push_cast at this
    rw [abs_le]; exact this
  refine ⟨roundTo 53 (-1022) ((5794206376053965 / 1099511627776 : ℚ) / den), ?_, hqr⟩
  rw [R64_ir_numerator, hdiv, R64_finite (le_trans hqr (by norm_num))]

/-- The quotient of line 128 for a reading in the range of `int`: a finite
`double` of magnitude at most 84320. -/
theorem ir_conversion_finite (r : Int) (h1 : -2147483648 ≤ r) (h2 : r ≤ 2147483647) :
    ∃ q : ℚ, ir_conversion r = .finite q ∧ |q| ≤ 84320 := by
  obtain ⟨den, e, hd⟩ := ir_denominator_finite r h1 h2
  obtain ⟨q, hq, hb⟩ := ir_quotient_finite hd
  refine ⟨q, ?_, hb⟩
  unfold ir_conversion
  rw [e, hq]

/-- One pass of `task_sensor_scan` for a reading in the range of `int`: the
value put into `IR_distance` is the `double` quotient truncated toward zero. -/
theorem task_sensor_scan_tick_eq (pulse : Nat) (r : Int) (sh : Shares)
    (h1 : -2147483648 ≤ r) (h2 : r ≤ 2147483647) :
    ∃ q : ℚ, ir_conversion r = .finite q ∧ |q| ≤ 84320 ∧
      task_sensor_scan_tick pulse r sh =
        some { sh with
          US_distance := (div64 (R32 pulse) (R64 (582 / 10))).round R32,
          IR_distance := .finite (truncToZero q : ℚ) } := by
  obtain ⟨q, hq, hb⟩ := ir_conversion_finite r h1 h2
  refine ⟨q, hq, hb, ?_⟩
  obtain ⟨b1, b2⟩ := abs_le.mp hb
  have hcast : castInt32 (.finite q) = some (truncToZero q) := by
    have hr : -2147483649 < q ∧ q < 2147483648 := ⟨by linarith, by linarith⟩
    simp only [castInt32, toInt32, hr, and_self, if_true, truncToZero]
  have ht := truncToZero_abs_le (x := q) (B := 84320) (by push_cast; exact hb)
  have hrep : IsRep 24 (-126) ((truncToZero q : Int) : ℚ) :=
    isRep_int _ (le_trans ht (by norm_num))
  have hf : intToFloat (truncToZero q) = .finite ((truncToZero q : Int) : ℚ) := by
    unfold intToFloat
    have e := roundTo_of_isRep 24 (by norm_num) (-126) _ hrep
    rw [R32_finite (by
      rw [e]
      have : ((|truncToZero q| : Int) : ℚ) ≤ ((84320 : Int) : ℚ) := by exact_mod_cast ht
      push_cast at this
      linarith), e]
  unfold task_sensor_scan_tick
  simp only [hq, hcast, hf]

/-! ## The Decision Engine, one pass -/

/-- C1: for every ultrasonic distance above 40, whatever the infrared distance
and the prior state, the pass puts 255, 255 and `false` into the three output
shares (and does nothing else, in particular no `delay`), and leaves
`state = RUNNING`. -/
theorem tick_far_full_speed (state : Int) (sh : Shares)
    (hus : sh.US_distance.gtInt 40 = true) :
    (task_process_sensor_data_tick state sh).1 = RUNNING ∧
    (task_process_sensor_data_tick state sh).2 =
      [.M1_put 255, .M2_put 255, .turn_put false] ∧
    (sh.exec (task_process_sensor_data_tick state sh).2).M1_duty_cycle = 255 ∧
    (sh.exec (task_process_sensor_data_tick state sh).2).M2_duty_cycle = 255 ∧
    (sh.exec (task_process_sensor_data_tick state sh).2).turn = false ∧
    ∀ ms, Action.delay ms ∉ (task_process_sensor_data_tick state sh).2 := by
  simp [task_process_sensor_data_tick, hus, full_speed, Shares.exec, Action.apply]

theorem tick_far_full_speed_witness :
    (FloatVal.finite 100).gtInt 40 = true ∧
    (task_process_sensor_data_tick STOPPED
        ⟨.finite 100, .finite 5, 0, 0, true⟩).1 = RUNNING ∧
    (task_process_sensor_data_tick STOPPED
        ⟨.finite 100, .finite 5, 0, 0, true⟩).2 =
      [.M1_put 255, .M2_put 255, .turn_put false] :=
  have h : (FloatVal.finite 100).gtInt 40 = true := by decide
  ⟨h, (tick_far_full_speed STOPPED ⟨.finite 100, .finite 5, 0, 0, true⟩ h).1,
    (tick_far_full_speed STOPPED ⟨.finite 100, .finite 5, 0, 0, true⟩ h).2.1⟩

/-- C2: for every ultrasonic distance at most 40 and every infrared distance
above 20, whatever the prior state, the pass puts 200, 200 and `false` into the
three output shares and leaves `state = RUNNING`. -/
theorem tick_near_partial_speed (state : Int) (sh : Shares)
    (hus : sh.US_distance.leInt 40 = true) (hir : sh.IR_distance.gtInt 20 = true) :
    (task_process_sensor_data_tick state sh).1 = RUNNING ∧
    (task_process_sensor_data_tick state sh).2 =
      [.M1_put 200, .M2_put 200, .turn_put false] ∧
    (sh.exec (task_process_sensor_data_tick state sh).2).M1_duty_cycle = 200 ∧
    (sh.exec (task_process_sensor_data_tick state sh).2).M2_duty_cycle = 200 ∧
    (sh.exec (task_process_sensor_data_tick state sh).2).turn = false := by
  simp [task_process_sensor_data_tick, FloatVal.gtInt_false_of_leInt hus, hir,
    partial_speed, Shares.exec, Action.apply]

theorem tick_near_partial_speed_witness :
    (FloatVal.finite 30).leInt 40 = true ∧ (FloatVal.finite 30).gtInt 20 = true ∧
    (task_process_sensor_data_tick STOPPED
        ⟨.finite 30, .finite 30, 0, 0, true⟩).1 = RUNNING ∧
    (task_process_sensor_data_tick STOPPED
        ⟨.finite 30, .finite 30, 0, 0, true⟩).2 =
      [.M1_put 200, .M2_put 200, .turn_put false] :=
  have h1 : (FloatVal.finite 30).leInt 40 = true := by decide
  have h2 : (FloatVal.finite 30).gtInt 20 = true := by decide
  ⟨h1, h2,
    (tick_near_partial_speed STOPPED ⟨.finite 30, .finite 30, 0, 0, true⟩ h1 h2).1,
    (tick_near_partial_speed STOPPED ⟨.finite 30, .finite 30, 0, 0, true⟩ h1 h2).2.1⟩

/-- C3: for every ultrasonic distance at most 40 and infrared distance at most
20, a pass entered with `state = RUNNING` puts 0, 0 and `false` into the three
output shares, then calls `delay(5000)` as its last action (so after the three
puts and before the next pass), and leaves `state = STOPPED`.  No other branch
delays: whenever a pass of any kind performs a `delay`, it was entered with
`state = RUNNING` and both comparisons `US_distance > 40`, `IR_distance > 20`
were false, and the pass is the one just described. -/
theorem tick_close_running_stops (sh : Shares)
    (hus : sh.US_distance.leInt 40 = true) (hir : sh.IR_distance.leInt 20 = true) :
    (task_process_sensor_data_tick RUNNING sh).1 = STOPPED ∧
    (task_process_sensor_data_tick RUNNING sh).2 =
      [.M1_put 0, .M2_put 0, .turn_put false] ++ [.delay 5000] ∧
    (sh.exec (task_process_sensor_data_tick RUNNING sh).2).M1_duty_cycle = 0 ∧
    (sh.exec (task_process_sensor_data_tick RUNNING sh).2).M2_duty_cycle = 0 ∧
    (sh.exec (task_process_sensor_data_tick RUNNING sh).2).turn = false ∧
    ∀ (state' : Int) (sh' : Shares) (ms : Nat),
      Action.delay ms ∈ (task_process_sensor_data_tick state' sh').2 →
        state' = RUNNING ∧ sh'.US_distance.gtInt 40 = false ∧
        sh'.IR_distance.gtInt 20 = false ∧ ms = 5000 ∧
        task_process_sensor_data_tick state' sh' =
          (STOPPED, [.M1_put 0, .M2_put 0, .turn_put false, .delay 5000]) := by
  refine ⟨?_, ?_, ?_, ?_, ?_, ?_⟩
  · simp [task_process_sensor_data_tick, FloatVal.gtInt_false_of_leInt hus,
      FloatVal.gtInt_false_of_leInt hir]
  · simp [task_process_sensor_data_tick, FloatVal.gtInt_false_of_leInt hus,
      FloatVal.gtInt_false_of_leInt hir]
  · simp [task_process_sensor_data_tick, FloatVal.gtInt_false_of_leInt hus,
      FloatVal.gtInt_false_of_leInt hir, Shares.exec, Action.apply]
  · simp [task_process_sensor_data_tick, FloatVal.gtInt_false_of_leInt hus,
      FloatVal.gtInt_false_of_leInt hir, Shares.exec, Action.apply]
  · simp [task_process_sensor_data_tick, FloatVal.gtInt_false_of_leInt hus,
      FloatVal.gtInt_false_of_leInt hir, Shares.exec, Action.apply]
  · intro state' sh' ms hmem
    unfold task_process_sensor_data_tick at hmem ⊢
    by_cases h1 : sh'.US_distance.gtInt 40 = true
    · simp [h1] at hmem
    · by_cases h2 : sh'.IR_distance.gtInt 20 = true
      · simp [h1, h2] at hmem
      · by_cases h3 : state' = 0
        · simp [h1, h2, h3] at hmem
          simp [h1, h2, h3, hmem]
        · simp [h1, h2, h3] at hmem

theorem tick_close_running_stops_witness :
    (FloatVal.finite 30).leInt 40 = true ∧ (FloatVal.finite 10).leInt 20 = true ∧
    (task_process_sensor_data_tick RUNNING
        ⟨.finite 30, .finite 10, 255, 255, false⟩).1 = STOPPED ∧
    (task_process_sensor_data_tick RUNNING
        ⟨.finite 30, .finite 10, 255, 255, false⟩).2 =
      [.M1_put 0, .M2_put 0, .turn_put false] ++ [.delay 5000] :=
  have h1 : (FloatVal.finite 30).leInt 40 = true := by decide
  have h2 : (FloatVal.finite 10).leInt 20 = true := by decide
  ⟨h1, h2,
    (tick_close_running_stops ⟨.finite 30, .finite 10, 255, 255, false⟩ h1 h2).1,
    (tick_close_running_stops ⟨.finite 30, .finite 10, 255, 255, false⟩ h1 h2).2.1⟩

/-- C4: for every ultrasonic distance at most 40 and infrared distance at most
20, a pass entered with `state = STOPPED` puts 200, 200 and `true` into the
three output shares, performs no `delay`, and leaves `state = STOPPED`. -/
theorem tick_close_stopped_turns (sh : Shares)
    (hus : sh.US_distance.leInt 40 = true) (hir : sh.IR_distance.leInt 20 = true) :
    (task_process_sensor_data_tick STOPPED sh).1 = STOPPED ∧
    (task_process_sensor_data_tick STOPPED sh).2 =
      [.M1_put 200, .M2_put 200, .turn_put true] ∧
    (sh.exec (task_process_sensor_data_tick STOPPED sh).2).M1_duty_cycle = 200 ∧
    (sh.exec (task_process_sensor_data_tick STOPPED sh).2).M2_duty_cycle = 200 ∧
    (sh.exec (task_process_sensor_data_tick STOPPED sh).2).turn = true ∧
    ∀ ms, Action.delay ms ∉ (task_process_sensor_data_tick STOPPED sh).2 := by
  simp [task_process_sensor_data_tick, FloatVal.gtInt_false_of_leInt hus,
    FloatVal.gtInt_false_of_leInt hir, partial_speed, Shares.exec, Action.apply]

theorem tick_close_stopped_turns_witness :
    (FloatVal.finite 30).leInt 40 = true ∧ (FloatVal.finite 10).leInt 20 = true ∧
    (task_process_sensor_data_tick STOPPED
        ⟨.finite 30, .finite 10, 0, 0, false⟩).1 = STOPPED ∧
    (task_process_sensor_data_tick STOPPED
        ⟨.finite 30, .finite 10, 0, 0, false⟩).2 =
      [.M1_put 200, .M2_put 200, .turn_put true] :=
  have h1 : (FloatVal.finite 30).leInt 40 = true := by decide
  have h2 : (FloatVal.finite 10).leInt 20 = true := by decide
  ⟨h1, h2,
    (tick_close_stopped_turns ⟨.finite 30, .finite 10, 0, 0, false⟩ h1 h2).1,
    (tick_close_stopped_turns ⟨.finite 30, .finite 10, 0, 0, false⟩ h1 h2).2.1⟩

/-! ## The Decision Engine, several passes -/

/-- C5: four passes that find the readings (100, 100), (30, 30), (30, 10),
(30, 10), started from any value of `state` and any contents of the shares,
give in turn: RUNNING with (255, 255, `false`) in the output shares, RUNNING
with (200, 200, `false`), STOPPED with (0, 0, `false`), STOPPED with
(200, 200, `true`). -/
theorem run_scenario (state : Int) (sh : Shares) :
    (task_process_sensor_data_run state sh
        [(.finite 100, .finite 100), (.finite 30, .finite 30),
         (.finite 30, .finite 10), (.finite 30, .finite 10)]).map
      (fun r => (r.state, r.shares.M1_duty_cycle, r.shares.M2_duty_cycle, r.shares.turn))
    = [(RUNNING, 255, 255, false), (RUNNING, 200, 200, false),
       (STOPPED, 0, 0, false), (STOPPED, 200, 200, true)] := by
  have a : (FloatVal.finite 100).gtInt 40 = true := by decide
  have b : (FloatVal.finite 30).gtInt 40 = false := by decide
  have c : (FloatVal.finite 30).gtInt 20 = true := by decide
  have d : (FloatVal.finite 10).gtInt 20 = false := by decide
  simp [task_process_sensor_data_run, task_process_sensor_data_tick, a, b, c, d,
    full_speed, partial_speed, Shares.exec, Action.apply]

/-! ## Start-up values of the private variables -/

/-- C6: the program does not fix the start-up values.  `state` may be entered
as `1`; the first pass, finding the readings (30, 10), then orders a turn
(200, 200, `true`) with no stop and no `delay`, where a pass entered with
`RUNNING` stops.  `motor_speed` may be entered as `1000`; the first pass of
either motor task, finding command 255, then hands `runMotor` the duty 925,
where a pass entered with speed 0 hands it 25. -/
theorem entry_values_not_fixed :
    task_process_sensor_data_entry 1 ≠ RUNNING ∧
    task_process_sensor_data_tick (task_process_sensor_data_entry 1)
        ⟨.finite 30, .finite 10, 0, 0, false⟩ =
      (1, [.M1_put 200, .M2_put 200, .turn_put true]) ∧
    task_process_sensor_data_tick RUNNING ⟨.finite 30, .finite 10, 0, 0, false⟩ =
      (1, [.M1_put 0, .M2_put 0, .turn_put false, .delay 5000]) ∧
    task_RS_Motor1_entry 1000 ≠ 0 ∧
    task_RS_Motor1_tick (task_RS_Motor1_entry 1000)
        ⟨.finite 100, .finite 100, 255, 255, false⟩ =
      ⟨1851 / 2, [⟨some 925, false⟩]⟩ ∧
    task_RS_Motor1_tick 0 ⟨.finite 100, .finite 100, 255, 255, false⟩ =
      ⟨51 / 2, [⟨some 25, false⟩]⟩ ∧
    task_RS_Motor2_entry 1000 ≠ 0 ∧
    task_RS_Motor2_tick (task_RS_Motor2_entry 1000)
        ⟨.finite 100, .finite 100, 255, 255, false⟩ =
      ⟨1851 / 2, [⟨some 925, true⟩]⟩ ∧
    task_RS_Motor2_tick 0 ⟨.finite 100, .finite 100, 255, 255, false⟩ =
      ⟨51 / 2, [⟨some 25, true⟩]⟩ := by
  have h925 : toUInt32 (1851 / 2) = some 925 :=
    toUInt32_of_mem_Ico 925 (by norm_num) (by norm_num) (by norm_num)
  have h25 : toUInt32 (51 / 2) = some 25 :=
    toUInt32_of_mem_Ico 25 (by norm_num) (by norm_num) (by norm_num)
  have e1 : (1000 : ℚ) * (9 / 10) + 255 * (1 - 9 / 10) = 1851 / 2 := by norm_num
  have e2 : (255 : ℚ) * (1 - 9 / 10) = 51 / 2 := by norm_num
  refine ⟨by decide, by decide, by decide, ?_, ?_, ?_, ?_, ?_, ?_⟩
  · norm_num [task_RS_Motor1_entry]
  · simp [task_RS_Motor1_tick, task_RS_Motor1_entry, sim_A, sim_B, e1, h925]
  · simp [task_RS_Motor1_tick, sim_A, sim_B, e2, h25]
  · norm_num [task_RS_Motor2_entry]
  · simp [task_RS_Motor2_tick, task_RS_Motor2_entry, sim_A, sim_B, e1, h925]
  · simp [task_RS_Motor2_tick, sim_A, sim_B, e2, h25]

/-! ## The motor tasks, one pass -/

/-- C7: immediate stop, for both motor tasks.  Whatever `motor_speed` was, a
pass that reads the command 0 sets `motor_speed` to exactly 0 and makes its one
`runMotor` call with duty 0 in that same pass; when the previous speed was not
0 this differs from the decayed value `motor_speed * sim_A`. -/
theorem motor_tick_zero_command (motor_speed : ℚ) (sh1 sh2 : Shares)
    (h1 : sh1.M1_duty_cycle = 0) (h2 : sh2.M2_duty_cycle = 0) :
    (task_RS_Motor1_tick motor_speed sh1).motor_speed = 0 ∧
    (task_RS_Motor1_tick motor_speed sh1).calls.map RunMotorCall.duty_cycle = [some 0] ∧
    (task_RS_Motor2_tick motor_speed sh2).motor_speed = 0 ∧
    (task_RS_Motor2_tick motor_speed sh2).calls.map RunMotorCall.duty_cycle = [some 0] ∧
    (motor_speed ≠ 0 →
      (task_RS_Motor1_tick motor_speed sh1).motor_speed ≠ motor_speed * sim_A ∧
      (task_RS_Motor2_tick motor_speed sh2).motor_speed ≠ motor_speed * sim_A) := by
  have hA : sim_A ≠ 0 := by norm_num [sim_A]
  refine ⟨?_, ?_, ?_, ?_, ?_⟩
  · simp [task_RS_Motor1_tick, h1]
  · simp [task_RS_Motor1_tick, h1, toUInt32_zero]
  · simp [task_RS_Motor2_tick, h2]
  · simp [task_RS_Motor2_tick, h2, toUInt32_zero]
  · intro hs
    have hne : (0 : ℚ) ≠ motor_speed * sim_A := (mul_ne_zero hs hA).symm
    constructor
    · simpa [task_RS_Motor1_tick, h1] using hne
    · simpa [task_RS_Motor2_tick, h2] using hne

theorem motor_tick_zero_command_witness :
    (task_RS_Motor1_tick 255 ⟨.finite 30, .finite 10, 0, 0, false⟩).motor_speed = 0 ∧
    (task_RS_Motor1_tick 255 ⟨.finite 30, .finite 10, 0, 0, false⟩).calls.map
      RunMotorCall.duty_cycle = [some 0] ∧
    (task_RS_Motor2_tick 255 ⟨.finite 30, .finite 10, 0, 0, false⟩).motor_speed = 0 ∧
    (task_RS_Motor2_tick 255 ⟨.finite 30, .finite 10, 0, 0, false⟩).calls.map
      RunMotorCall.duty_cycle = [some 0] :=
  have h := motor_tick_zero_command 255 ⟨.finite 30, .finite 10, 0, 0, false⟩
    ⟨.finite 30, .finite 10, 0, 0, false⟩ rfl rfl
  ⟨h.1, h.2.1, h.2.2.1, h.2.2.2.1⟩

/-- C9: the non-turning motor.  Every pass of `task_RS_Motor2` makes exactly
one `runMotor` call and its direction argument is `true`, for every
`motor_speed` and every content of the shares.  The pass depends on the shares
only through `M2_duty_cycle`: two passes, and two runs of any length, whose
shares agree on `M2_duty_cycle` at each pass (and may differ in `turn` and
everywhere else) make identical `runMotor` calls and end with the same speed. -/
theorem motor2_direction_fixed (motor_speed : ℚ) (sh : Shares) :
    (task_RS_Motor2_tick motor_speed sh).calls.map RunMotorCall.clockwise = [true] ∧
    (∀ sh' : Shares, sh'.M2_duty_cycle = sh.M2_duty_cycle →
      task_RS_Motor2_tick motor_speed sh' = task_RS_Motor2_tick motor_speed sh) ∧
    (∀ t : Bool,
      task_RS_Motor2_tick motor_speed { sh with turn := t } =
        task_RS_Motor2_tick motor_speed sh) ∧
    (∀ l l' : List Shares,
      List.Forall₂ (fun a b => a.M2_duty_cycle = b.M2_duty_cycle) l l' →
        task_RS_Motor2_run motor_speed l = task_RS_Motor2_run motor_speed l') ∧
    (∀ l : List Shares,
      ∀ c ∈ (task_RS_Motor2_run motor_speed l).calls, c.clockwise = true) := by
  refine ⟨?_, ?_, ?_, ?_, ?_⟩
  · simp [task_RS_Motor2_tick]
  · intro sh' h
    simp [task_RS_Motor2_tick, h]
  · intro t
    simp [task_RS_Motor2_tick]
  · intro l l' h
    exact task_RS_Motor2_run_congr h motor_speed
  · intro l
    exact task_RS_Motor2_run_clockwise l motor_speed

/-- C10: the turn-capable motor.  A pass of `task_RS_Motor1` makes exactly one
`runMotor` call; its direction argument is `true` (clockwise) if and only if
the command read is 0 or the `turn` share read is `true`, and `false`
(counterclockwise) when the command is nonzero and `turn` is `false`. -/
theorem motor1_direction (motor_speed : ℚ) (sh : Shares) :
    (∃ c, (task_RS_Motor1_tick motor_speed sh).calls = [c] ∧
      (c.clockwise = true ↔ sh.M1_duty_cycle = 0 ∨ sh.turn = true) ∧
      (sh.M1_duty_cycle ≠ 0 ∧ sh.turn = false → c.clockwise = false)) := by
  by_cases h : sh.M1_duty_cycle = 0
  · simp [task_RS_Motor1_tick, h]
  · simp [task_RS_Motor1_tick, h]

/-! ## The motor tasks, constant command -/

/-- C11: one pass of `task_RS_Motor1` followed by the `runMotor` call it makes.
Whenever the duty argument of the call has a defined value `d`, the pin outputs
are the clockwise configuration (EN high, INA high, INB low, PWM `d`) if and
only if the `turn` share is `true` and `d ≠ 0`; when `d ≠ 0` and `turn` is
`false` they are the counterclockwise configuration (EN high, INA low,
INB high, PWM `d`). -/
theorem motor1_driver_configuration (m : MotorControl) (motor_speed : ℚ) (sh : Shares)
    (d : Nat) (cw : Bool)
    (hcall : (task_RS_Motor1_tick motor_speed sh).calls = [⟨some d, cw⟩]) :
    ((task_RS_Motor1_tick motor_speed sh).calls.map (RunMotorCall.exec m) =
        [some [.digitalWrite m.EN_stored true, .digitalWrite m.IN_A_stored true,
               .digitalWrite m.IN_B_stored false, .analogWrite m.PWM_stored d]]
      ↔ sh.turn = true ∧ d ≠ 0) ∧
    (d ≠ 0 ∧ sh.turn = false →
      (task_RS_Motor1_tick motor_speed sh).calls.map (RunMotorCall.exec m) =
        [some [.digitalWrite m.EN_stored true, .digitalWrite m.IN_A_stored false,
               .digitalWrite m.IN_B_stored true, .analogWrite m.PWM_stored d]]) := by
  rw [hcall]
  have hcw : d ≠ 0 → cw = sh.turn := by
    intro hd
    by_cases h0 : sh.M1_duty_cycle = 0
    · simp [task_RS_Motor1_tick, h0, toUInt32_zero] at hcall
      exact absurd hcall.1.symm hd
    · simp [task_RS_Motor1_tick, h0] at hcall
      exact hcall.2.symm
  by_cases hd : d = 0
  · subst hd
    simp [RunMotorCall.exec, MotorControl.runMotor]
  · have hc := hcw hd
    subst hc
    cases ht : sh.turn <;>
      simp [RunMotorCall.exec, MotorControl.runMotor, hd, ht] at hcall ⊢

theorem motor1_driver_configuration_witness :
    (task_RS_Motor1_tick 0 ⟨.finite 30, .finite 10, 200, 200, true⟩).calls =
      [⟨some 20, true⟩] ∧
    ((task_RS_Motor1_tick 0 ⟨.finite 30, .finite 10, 200, 200, true⟩).calls.map
        (RunMotorCall.exec ⟨12, 7, 8, 10⟩) =
        [some [.digitalWrite 12 true, .digitalWrite 7 true,
               .digitalWrite 8 false, .analogWrite 10 20]]
      ↔ true = true ∧ 20 ≠ 0) :=
  have h : (task_RS_Motor1_tick 0 ⟨.finite 30, .finite 10, 200, 200, true⟩).calls =
      [⟨some 20, true⟩] := by
    have e : (200 : ℚ) * (1 - 9 / 10) = 20 := by norm_num
    have h20 : toUInt32 20 = some 20 :=
      toUInt32_of_mem_Ico 20 (by norm_num) (by norm_num) (by norm_num)
    simp [task_RS_Motor1_tick, sim_A, sim_B, e, h20]
  ⟨h, (motor1_driver_configuration ⟨12, 7, 8, 10⟩ 0
    ⟨.finite 30, .finite 10, 200, 200, true⟩ 20 true h).1⟩

/-- C12: `runMotor` with `duty_cycle = 0` brakes whatever `clockwise` is: it
writes EN high, INA high, INB high and PWM value 0, and the outputs for
`clockwise = true` and `clockwise = false` are identical. -/
theorem runMotor_zero_brakes (m : MotorControl) (clockwise : Bool) :
    (m.runMotor 0 clockwise).2 =
      [.digitalWrite m.EN_stored true, .digitalWrite m.IN_A_stored true,
       .digitalWrite m.IN_B_stored true, .analogWrite m.PWM_stored 0] ∧
    m.runMotor 0 true = m.runMotor 0 false := by
  simp [MotorControl.runMotor]

/-- C20: truth table of `runMotor`.  For every nonzero `duty_cycle`,
`clockwise = true` writes INA high and INB low and `clockwise = false` writes
INA low and INB high.  In every branch, duty 0 included, the first write is EN
high, the last write sets the PWM pin to exactly the `duty_cycle` argument, the
two writes between them go to INA and INB, and the stored pin numbers are
unchanged. -/
theorem runMotor_truth_table (m : MotorControl) (duty_cycle : Nat) (h : duty_cycle ≠ 0) :
    (m.runMotor duty_cycle true).2 =
      [.digitalWrite m.EN_stored true, .digitalWrite m.IN_A_stored true,
       .digitalWrite m.IN_B_stored false, .analogWrite m.PWM_stored duty_cycle] ∧
    (m.runMotor duty_cycle false).2 =
      [.digitalWrite m.EN_stored true, .digitalWrite m.IN_A_stored false,
       .digitalWrite m.IN_B_stored true, .analogWrite m.PWM_stored duty_cycle] ∧
    (∀ (duty : Nat) (clockwise : Bool), ∃ a b : Bool,
      (m.runMotor duty clockwise).2 =
        [.digitalWrite m.EN_stored true, .digitalWrite m.IN_A_stored a,
         .digitalWrite m.IN_B_stored b, .analogWrite m.PWM_stored duty]) ∧
    (∀ (duty : Nat) (clockwise : Bool), (m.runMotor duty clockwise).1 = m) := by
  refine ⟨by simp [MotorControl.runMotor, h], by simp [MotorControl.runMotor, h], ?_, ?_⟩
  · intro duty clockwise
    by_cases hd : duty = 0
    · exact ⟨true, true, by simp [MotorControl.runMotor, hd]⟩
    · cases clockwise
      · exact ⟨false, true, by simp [MotorControl.runMotor, hd]⟩
      · exact ⟨true, false, by simp [MotorControl.runMotor, hd]⟩
  · intro duty clockwise
    rfl

theorem runMotor_truth_table_witness :
    (25 : Nat) ≠ 0 ∧
    ((⟨12, 7, 8, 10⟩ : MotorControl).runMotor 25 true).2 =
      [.digitalWrite 12 true, .digitalWrite 7 true,
       .digitalWrite 8 false, .analogWrite 10 25] ∧
    ((⟨12, 7, 8, 10⟩ : MotorControl).runMotor 25 false).2 =
      [.digitalWrite 12 true, .digitalWrite 7 false,
       .digitalWrite 8 true, .analogWrite 10 25] :=
  ⟨by decide, (runMotor_truth_table ⟨12, 7, 8, 10⟩ 25 (by decide)).1,
    (runMotor_truth_table ⟨12, 7, 8, 10⟩ 25 (by decide)).2.1⟩

/-! ## Invariants of the Decision Engine -/

/-- C13: every motor command the Decision Engine publishes lies in [0, 255].
After a pass from any state on any shares, `M1_duty_cycle` and `M2_duty_cycle`
are each 0, 200 or 255, and so is every value the pass puts into either share;
the same holds for the shares recorded after every pass of every run. -/
theorem commands_in_range (state : Int) (sh : Shares) :
    ((sh.exec (task_process_sensor_data_tick state sh).2).M1_duty_cycle = 0 ∨
     (sh.exec (task_process_sensor_data_tick state sh).2).M1_duty_cycle = 200 ∨
     (sh.exec (task_process_sensor_data_tick state sh).2).M1_duty_cycle = 255) ∧
    ((sh.exec (task_process_sensor_data_tick state sh).2).M2_duty_cycle = 0 ∨
     (sh.exec (task_process_sensor_data_tick state sh).2).M2_duty_cycle = 200 ∨
     (sh.exec (task_process_sensor_data_tick state sh).2).M2_duty_cycle = 255) ∧
    (∀ v : Int, (Action.M1_put v ∈ (task_process_sensor_data_tick state sh).2 ∨
        Action.M2_put v ∈ (task_process_sensor_data_tick state sh).2) →
      (v = 0 ∨ v = 200 ∨ v = 255) ∧ 0 ≤ v ∧ v ≤ 255) ∧
    (∀ (readings : List (FloatVal × FloatVal)),
      ∀ r ∈ task_process_sensor_data_run state sh readings,
        (r.shares.M1_duty_cycle = 0 ∨ r.shares.M1_duty_cycle = 200 ∨
          r.shares.M1_duty_cycle = 255) ∧
        (r.shares.M2_duty_cycle = 0 ∨ r.shares.M2_duty_cycle = 200 ∨
          r.shares.M2_duty_cycle = 255) ∧
        0 ≤ r.shares.M1_duty_cycle ∧ r.shares.M1_duty_cycle ≤ 255 ∧
        0 ≤ r.shares.M2_duty_cycle ∧ r.shares.M2_duty_cycle ≤ 255) := by
  have key : ∀ (st : Int) (s0 : Shares),
      ((s0.exec (task_process_sensor_data_tick st s0).2).M1_duty_cycle = 0 ∨
       (s0.exec (task_process_sensor_data_tick st s0).2).M1_duty_cycle = 200 ∨
       (s0.exec (task_process_sensor_data_tick st s0).2).M1_duty_cycle = 255) ∧
      ((s0.exec (task_process_sensor_data_tick st s0).2).M2_duty_cycle = 0 ∨
       (s0.exec (task_process_sensor_data_tick st s0).2).M2_duty_cycle = 200 ∨
       (s0.exec (task_process_sensor_data_tick st s0).2).M2_duty_cycle = 255) := by
    intro st s0
    obtain ⟨h1, h2⟩ := task_process_sensor_data_tick_commands st s0
    exact ⟨h1, by rw [h2]; exact h1⟩
  refine ⟨(key state sh).1, (key state sh).2, ?_, ?_⟩
  · intro v hv
    rcases task_process_sensor_data_tick_cases state sh with
      ⟨_, h⟩ | ⟨_, _, h⟩ | ⟨_, _, _, h⟩ | ⟨_, _, _, h⟩ <;>
    · rw [h] at hv
      simp at hv
      omega
  · intro readings r hr
    obtain ⟨st, s0, _, _, hsh⟩ := task_process_sensor_data_run_mem readings state sh r hr
    rw [hsh]
    obtain ⟨h1, h2⟩ := key st s0
    refine ⟨h1, h2, ?_, ?_, ?_, ?_⟩ <;> omega

/-- C17: the Decision Engine never commands a full stop on two passes in a
row.  For every value of `state` and any two successive pairs of readings, the
two passes do not both leave (0, 0) in the command shares.  A pass leaves
(0, 0) if and only if both comparisons `US_distance > 40` and
`IR_distance > 20` are false and it was entered with `state = RUNNING`; for
readings that are not NaN this is `US_distance <= 40`, `IR_distance <= 20` and
`state = RUNNING`.  Such a pass leaves `state = STOPPED`, and the pass after it
leaves nonzero commands. -/
theorem no_two_consecutive_stops (state : Int) (sh : Shares) :
    (∀ (p q : FloatVal × FloatVal) (r1 r2 : TickRecord),
      task_process_sensor_data_run state sh [p, q] = [r1, r2] →
      ¬ ((r1.shares.M1_duty_cycle = 0 ∧ r1.shares.M2_duty_cycle = 0) ∧
         (r2.shares.M1_duty_cycle = 0 ∧ r2.shares.M2_duty_cycle = 0))) ∧
    (((sh.exec (task_process_sensor_data_tick state sh).2).M1_duty_cycle = 0 ∧
      (sh.exec (task_process_sensor_data_tick state sh).2).M2_duty_cycle = 0) ↔
      (sh.US_distance.gtInt 40 = false ∧ sh.IR_distance.gtInt 20 = false ∧
        state = RUNNING)) ∧
    (sh.US_distance ≠ FloatVal.nan → sh.IR_distance ≠ FloatVal.nan →
      (((sh.exec (task_process_sensor_data_tick state sh).2).M1_duty_cycle = 0 ∧
        (sh.exec (task_process_sensor_data_tick state sh).2).M2_duty_cycle = 0) ↔
        (sh.US_distance.leInt 40 = true ∧ sh.IR_distance.leInt 20 = true ∧
          state = RUNNING))) ∧
    (((sh.exec (task_process_sensor_data_tick state sh).2).M1_duty_cycle = 0 ∧
      (sh.exec (task_process_sensor_data_tick state sh).2).M2_duty_cycle = 0) →
      (task_process_sensor_data_tick state sh).1 = STOPPED ∧
      ∀ sh2 : Shares,
        (sh2.exec (task_process_sensor_data_tick
            (task_process_sensor_data_tick state sh).1 sh2).2).M1_duty_cycle ≠ 0 ∧
        (sh2.exec (task_process_sensor_data_tick
            (task_process_sensor_data_tick state sh).1 sh2).2).M2_duty_cycle ≠ 0) := by
  have hiff : ∀ (st : Int) (s0 : Shares),
      (((s0.exec (task_process_sensor_data_tick st s0).2).M1_duty_cycle = 0 ∧
        (s0.exec (task_process_sensor_data_tick st s0).2).M2_duty_cycle = 0) ↔
        (s0.US_distance.gtInt 40 = false ∧ s0.IR_distance.gtInt 20 = false ∧ st = 0)) := by
    intro st s0
    rcases task_process_sensor_data_tick_cases st s0 with
      ⟨c1, h⟩ | ⟨c1, c2, h⟩ | ⟨c1, c2, c3, h⟩ | ⟨c1, c2, c3, h⟩
    · simp [h, c1, Shares.exec, Action.apply]
    · simp [h, c1, c2, Shares.exec, Action.apply]
    · simp [h, c1, c2, c3, Shares.exec, Action.apply]
    · rw [h]
      simp [c1, c2, c3, Shares.exec, Action.apply]
  have hnext : ∀ (st : Int) (s0 : Shares),
      ((s0.exec (task_process_sensor_data_tick st s0).2).M1_duty_cycle = 0 ∧
        (s0.exec (task_process_sensor_data_tick st s0).2).M2_duty_cycle = 0) →
      (task_process_sensor_data_tick st s0).1 = 1 := by
    intro st s0 hz
    obtain ⟨c1, c2, c3⟩ := (hiff st s0).mp hz
    simp [task_process_sensor_data_tick, c1, c2, c3]
  have hnz : ∀ s2 : Shares,
      (s2.exec (task_process_sensor_data_tick 1 s2).2).M1_duty_cycle ≠ 0 ∧
      (s2.exec (task_process_sensor_data_tick 1 s2).2).M2_duty_cycle ≠ 0 := by
    intro s2
    rcases task_process_sensor_data_tick_cases 1 s2 with
      ⟨c1, h⟩ | ⟨c1, c2, h⟩ | ⟨c1, c2, c3, h⟩ | ⟨c1, c2, c3, h⟩
    · simp [h, Shares.exec, Action.apply]
    · simp [h, Shares.exec, Action.apply]
    · simp [h, Shares.exec, Action.apply]
    · exact absurd c3 (by decide)
  refine ⟨?_, hiff state sh, ?_, ?_⟩
  · intro p q r1 r2 hrun
    obtain ⟨us1, ir1⟩ := p
    obtain ⟨us2, ir2⟩ := q
    simp only [task_process_sensor_data_run, List.cons.injEq, and_true] at hrun
    obtain ⟨e1, e2⟩ := hrun
    rintro ⟨hz1, hz2⟩
    rw [← e1] at hz1
    rw [← e2] at hz2
    have hs := hnext state { sh with US_distance := us1, IR_distance := ir1 } hz1
    simp only [hs] at hz2
    exact (hnz _).1 hz2.1
  · intro hu hi
    rw [hiff state sh, FloatVal.gtInt_false_iff_leInt hu, FloatVal.gtInt_false_iff_leInt hi]
  · intro hz
    have hs := hnext state sh hz
    refine ⟨hs, fun sh2 => ?_⟩
    rw [hs]
    exact hnz sh2

/-- C18: the state after a pass depends only on the readings of that pass.
For a pass entered with `state` RUNNING or STOPPED, the state afterwards is
STOPPED if and only if both comparisons `US_distance > 40` and
`IR_distance > 20` are false (for readings that are not NaN:
`US_distance <= 40` and `IR_distance <= 20`), and RUNNING otherwise; it is the
same whichever of the two states the pass was entered with.  Hence a pass
entered with STOPPED leaves RUNNING only when `US_distance > 40` or
`IR_distance > 20`, and every pass that puts `true` into `turn` leaves
`state = STOPPED`. -/
theorem state_after_depends_on_readings (state : Int) (sh : Shares)
    (hst : state = RUNNING ∨ state = STOPPED) :
    ((task_process_sensor_data_tick state sh).1 = STOPPED ↔
      (sh.US_distance.gtInt 40 = false ∧ sh.IR_distance.gtInt 20 = false)) ∧
    ((task_process_sensor_data_tick state sh).1 = RUNNING ↔
      ¬ (sh.US_distance.gtInt 40 = false ∧ sh.IR_distance.gtInt 20 = false)) ∧
    (sh.US_distance ≠ FloatVal.nan → sh.IR_distance ≠ FloatVal.nan →
      ((task_process_sensor_data_tick state sh).1 = STOPPED ↔
        (sh.US_distance.leInt 40 = true ∧ sh.IR_distance.leInt 20 = true)) ∧
      ((task_process_sensor_data_tick state sh).1 = RUNNING ↔
        ¬ (sh.US_distance.leInt 40 = true ∧ sh.IR_distance.leInt 20 = true))) ∧
    ((task_process_sensor_data_tick RUNNING sh).1 =
      (task_process_sensor_data_tick STOPPED sh).1) ∧
    ((task_process_sensor_data_tick STOPPED sh).1 = RUNNING →
      sh.US_distance.gtInt 40 = true ∨ sh.IR_distance.gtInt 20 = true) ∧
    (Action.turn_put true ∈ (task_process_sensor_data_tick state sh).2 →
      (task_process_sensor_data_tick state sh).1 = STOPPED ∧
      (sh.exec (task_process_sensor_data_tick state sh).2).turn = true) ∧
    ((sh.exec (task_process_sensor_data_tick state sh).2).turn = true →
      (task_process_sensor_data_tick state sh).1 = STOPPED) := by
  have hS : ∀ st : Int, st = 0 ∨ st = 1 →
      ((task_process_sensor_data_tick st sh).1 = 1 ↔
        (sh.US_distance.gtInt 40 = false ∧ sh.IR_distance.gtInt 20 = false)) := by
    intro st h01
    rcases task_process_sensor_data_tick_cases st sh with
      ⟨c1, h⟩ | ⟨c1, c2, h⟩ | ⟨c1, c2, c3, h⟩ | ⟨c1, c2, c3, h⟩
    · simp [h, c1]
    · simp [h, c1, c2]
    · have h1 : st = 1 := by omega
      rw [h]
      simp [c1, c2, h1]
    · rw [h]
      simp [c1, c2]
  have hR : ∀ st : Int, st = 0 ∨ st = 1 →
      ((task_process_sensor_data_tick st sh).1 = 0 ↔
        ¬ (sh.US_distance.gtInt 40 = false ∧ sh.IR_distance.gtInt 20 = false)) := by
    intro st h01
    rcases task_process_sensor_data_tick_cases st sh with
      ⟨c1, h⟩ | ⟨c1, c2, h⟩ | ⟨c1, c2, c3, h⟩ | ⟨c1, c2, c3, h⟩
    · simp [h, c1]
    · simp [h, c1, c2]
    · rw [h]
      simp [c1, c2, c3]
    · rw [h]
      simp [c1, c2]
  have hT : Action.turn_put true ∈ (task_process_sensor_data_tick state sh).2 →
      (task_process_sensor_data_tick state sh).1 = 1 ∧
      (sh.exec (task_process_sensor_data_tick state sh).2).turn = true := by
    intro hmem
    rcases task_process_sensor_data_tick_cases state sh with
      ⟨c1, h⟩ | ⟨c1, c2, h⟩ | ⟨c1, c2, c3, h⟩ | ⟨c1, c2, c3, h⟩
    · rw [h] at hmem; simp at hmem
    · rw [h] at hmem; simp at hmem
    · have h1 : state = 1 := hst.resolve_left c3
      rw [h]
      simp [h1, Shares.exec, Action.apply]
    · rw [h] at hmem; simp at hmem
  have hT2 : (sh.exec (task_process_sensor_data_tick state sh).2).turn = true →
      (task_process_sensor_data_tick state sh).1 = 1 := by
    intro ht
    rcases task_process_sensor_data_tick_cases state sh with
      ⟨c1, h⟩ | ⟨c1, c2, h⟩ | ⟨c1, c2, c3, h⟩ | ⟨c1, c2, c3, h⟩
    · rw [h] at ht; simp [Shares.exec, Action.apply] at ht
    · rw [h] at ht; simp [Shares.exec, Action.apply] at ht
    · have h1 : state = 1 := hst.resolve_left c3
      rw [h]
      simp [h1]
    · rw [h] at ht; simp [Shares.exec, Action.apply] at ht
  refine ⟨hS state hst, hR state hst, ?_, ?_, ?_, hT, hT2⟩
  · intro hu hi
    rw [← FloatVal.gtInt_false_iff_leInt hu, ← FloatVal.gtInt_false_iff_leInt hi]
    exact ⟨hS state hst, hR state hst⟩
  · by_cases hc : sh.US_distance.gtInt 40 = false ∧ sh.IR_distance.gtInt 20 = false
    · rw [(hS 0 (Or.inl rfl)).mpr hc, (hS 1 (Or.inr rfl)).mpr hc]
    · rw [(hR 0 (Or.inl rfl)).mpr hc, (hR 1 (Or.inr rfl)).mpr hc]
  · intro h0
    have := (hR 1 (Or.inr rfl)).mp h0
    by_cases hu : sh.US_distance.gtInt 40 = true
    · exact Or.inl hu
    · right
      by_contra hi
      exact this ⟨by simpa using hu, by simpa using hi⟩

theorem state_after_depends_on_readings_witness :
    ((STOPPED = RUNNING ∨ STOPPED = STOPPED) ∧
    ((task_process_sensor_data_tick STOPPED ⟨.finite 30, .finite 30, 200, 200, true⟩).1
        = RUNNING ↔
      ¬ ((FloatVal.finite 30).gtInt 40 = false ∧ (FloatVal.finite 30).gtInt 20 = false))) :=
  ⟨Or.inr rfl,
    (state_after_depends_on_readings STOPPED ⟨.finite 30, .finite 30, 200, 200, true⟩
      (Or.inr rfl)).2.1⟩

/-! ## The motor step in `float` arithmetic -/

/-- C14, as stated, fails for the program, which computes in `float`: for the
`float` speed 13981013/4194304 (about 3.3333333) and command 200 the pass of
either motor task sets the speed to 6029313/262144 (about 23.0000038) and hands
`runMotor` the duty 23, whatever products the compiler fuses; the value
`(9/10) * s + (1/10) * 200` of the exact formula is 964689917/41943040 (about
22.9999999), whose truncation is 22. -/
theorem motor_step_exact_formula_counterexample :
    R32 (13981013 / 4194304) = .finite (13981013 / 4194304) ∧
    (∀ fc, task_RS_Motor1_tick_f32 fc (.finite (13981013 / 4194304))
        ⟨.finite 100, .finite 100, 200, 200, false⟩ =
      ⟨.finite (6029313 / 262144), [⟨some 23, false⟩]⟩) ∧
    (∀ fc, task_RS_Motor2_tick_f32 fc (.finite (13981013 / 4194304))
        ⟨.finite 100, .finite 100, 200, 200, false⟩ =
      ⟨.finite (6029313 / 262144), [⟨some 23, true⟩]⟩) ∧
    (9 / 10 : ℚ) * (13981013 / 4194304) + (1 / 10) * ((200 : Int) : ℚ) =
      964689917 / 41943040 ∧
    (6029313 / 262144 : ℚ) ≠ 964689917 / 41943040 ∧
    truncToZero (964689917 / 41943040) = 22 := by
  refine ⟨by decide!, ?_, ?_, by norm_num, by norm_num, by decide!⟩
  · intro fc
    cases fc <;> decide!
  · intro fc
    cases fc <;> decide!

/-- C14, amended: the motor step of both motor tasks as the program computes
it.  `sim_A` is the `float` 7549747/8388608 and `sim_B` the `float`
838861/8388608.  For a prior speed `s` that is a `float` in `[0, 255]` and a
command in 1..255, whatever products the compiler fuses, the new speed is a
finite `float` within `2 ^ (-15)` of `(9/10) * s + (1/10) * command`, and the
duty handed to `runMotor` is defined and is the new speed truncated toward
zero.  For every prior speed (NaN and the infinities included) and every
command, zero or not, a pass makes exactly one `runMotor` call, and a duty that
is defined is the truncation toward zero of the new speed. -/
theorem motor_step_float (fc : Contraction) (s : ℚ) (sh1 sh2 : Shares)
    (hfloat : R32 s = .finite s) (hs0 : 0 ≤ s) (hs1 : s ≤ 255)
    (h1 : 1 ≤ sh1.M1_duty_cycle ∧ sh1.M1_duty_cycle ≤ 255)
    (h2 : 1 ≤ sh2.M2_duty_cycle ∧ sh2.M2_duty_cycle ≤ 255) :
    sim_A_f32 = .finite (7549747 / 8388608) ∧
    sim_B_f32 = .finite (838861 / 8388608) ∧
    (∃ (t : ℚ) (d : Nat),
      task_RS_Motor1_tick_f32 fc (.finite s) sh1 = ⟨.finite t, [⟨some d, sh1.turn⟩]⟩ ∧
      R32 t = .finite t ∧
      |t - ((9 / 10) * s + (1 / 10) * (sh1.M1_duty_cycle : ℚ))| ≤ 1 / 32768 ∧
      (d : Int) = truncToZero t) ∧
    (∃ (t : ℚ) (d : Nat),
      task_RS_Motor2_tick_f32 fc (.finite s) sh2 = ⟨.finite t, [⟨some d, true⟩]⟩ ∧
      R32 t = .finite t ∧
      |t - ((9 / 10) * s + (1 / 10) * (sh2.M2_duty_cycle : ℚ))| ≤ 1 / 32768 ∧
      (d : Int) = truncToZero t) ∧
    (∀ (fc' : Contraction) (v : FloatVal) (sh : Shares),
      (task_RS_Motor1_tick_f32 fc' v sh).calls.length = 1 ∧
      (task_RS_Motor2_tick_f32 fc' v sh).calls.length = 1) ∧
    (∀ (fc' : Contraction) (v : FloatVal) (sh : Shares) (d : Nat),
      ((task_RS_Motor1_tick_f32 fc' v sh).calls.map RunMotorCall.duty_cycle = [some d] →
        ∃ t : ℚ, (task_RS_Motor1_tick_f32 fc' v sh).motor_speed = .finite t ∧
          (d : Int) = truncToZero t) ∧
      ((task_RS_Motor2_tick_f32 fc' v sh).calls.map RunMotorCall.duty_cycle = [some d] →
        ∃ t : ℚ, (task_RS_Motor2_tick_f32 fc' v sh).motor_speed = .finite t ∧
          (d : Int) = truncToZero t)) := by
  have hrep := isRep_of_R32 hfloat
  refine ⟨sim_A_f32_eq, sim_B_f32_eq, ?_, ?_, ?_, ?_⟩
  · obtain ⟨t, d, e, r, l0, l1, _, hne, ht, _⟩ :=
      task_RS_Motor1_tick_f32_range fc (sh1) hrep hs0 hs1 (by omega) h1.2
    have hc : sh1.M1_duty_cycle ≠ 0 := by omega
    rw [if_neg hc] at e
    refine ⟨t, d, e, R32_of_isRep r l0 (by linarith), ?_, ht⟩
    rw [(hne hc).1]
    exact smoothQ_near_ideal fc hs0 hs1 (by exact_mod_cast (by omega : 0 ≤ sh1.M1_duty_cycle))
      (by exact_mod_cast h1.2)
  · obtain ⟨t, d, e, r, l0, l1, _, hne, ht, _⟩ :=
      task_RS_Motor2_tick_f32_range fc (sh2) hrep hs0 hs1 (by omega) h2.2
    have hc : sh2.M2_duty_cycle ≠ 0 := by omega
    refine ⟨t, d, e, R32_of_isRep r l0 (by linarith), ?_, ht⟩
    rw [(hne hc).1]
    exact smoothQ_near_ideal fc hs0 hs1 (by exact_mod_cast (by omega : 0 ≤ sh2.M2_duty_cycle))
      (by exact_mod_cast h2.2)
  · intro fc' v sh
    constructor
    · by_cases h : sh.M1_duty_cycle = 0 <;> simp [task_RS_Motor1_tick_f32, h]
    · simp [task_RS_Motor2_tick_f32]
  · intro fc' v sh d
    constructor
    · intro h
      have hcast : castUInt32 (task_RS_Motor1_tick_f32 fc' v sh).motor_speed = some d := by
        by_cases h0 : sh.M1_duty_cycle = 0
        · simpa [task_RS_Motor1_tick_f32, h0] using h
        · simpa [task_RS_Motor1_tick_f32, h0] using h
      exact castUInt32_some hcast
    · intro h
      have hcast : castUInt32 (task_RS_Motor2_tick_f32 fc' v sh).motor_speed = some d := by
        simpa [task_RS_Motor2_tick_f32] using h
      exact castUInt32_some hcast

theorem motor_step_float_witness :
    (R32 100 = .finite 100 ∧ (0 : ℚ) ≤ 100 ∧ (100 : ℚ) ≤ 255 ∧
      ((1 : Int) ≤ 255 ∧ (255 : Int) ≤ 255)) ∧
    (∃ (t : ℚ) (d : Nat),
      task_RS_Motor1_tick_f32 .separate (.finite 100)
          ⟨.finite 100, .finite 100, 255, 255, false⟩ = ⟨.finite t, [⟨some d, false⟩]⟩ ∧
      R32 t = .finite t ∧
      |t - ((9 / 10) * 100 + (1 / 10) * ((255 : Int) : ℚ))| ≤ 1 / 32768 ∧
      (d : Int) = truncToZero t) :=
  have hf : R32 100 = .finite 100 :=
    R32_of_isRep ⟨100, 0, by norm_num, by norm_num, by norm_num⟩ (by norm_num) (by norm_num)
  have h := motor_step_float .separate 100 ⟨.finite 100, .finite 100, 255, 255, false⟩
    ⟨.finite 100, .finite 100, 255, 255, false⟩ hf (by norm_num) (by norm_num)
    ⟨by decide, by decide⟩ ⟨by decide, by decide⟩
  ⟨⟨hf, by norm_num, by norm_num, by decide, by decide⟩, h.2.2.1⟩

/-! ## Range of the duty handed to `runMotor` -/

/-- C15: duty-range invariant of the motor step as the program computes it, in
`float` arithmetic and whatever products the compiler fuses, for both motor
tasks.  If the prior speed is a `float` in [0, 255] and the command is in
[0, 255], the new speed is a `float` in [0, 255]; it is 0 when the command is
0 and lies between the prior speed and the command otherwise; the conversion
to `uint32_t` is applied to a value in range, so the duty handed to `runMotor`
is defined, equals the new speed truncated toward zero and is at most 255.  By
induction: started from speed 0 and fed commands that a pass of the Decision
Engine left in the shares, before every pass the speed is in [0, 255] and the
pass hands `runMotor` a defined duty of at most 255. -/
theorem duty_range_invariant_float (fc : Contraction) (s : ℚ) (sh : Shares)
    (hfloat : R32 s = .finite s) (hs0 : 0 ≤ s) (hs1 : s ≤ 255)
    (h1 : 0 ≤ sh.M1_duty_cycle ∧ sh.M1_duty_cycle ≤ 255)
    (h2 : 0 ≤ sh.M2_duty_cycle ∧ sh.M2_duty_cycle ≤ 255) :
    (∃ (t : ℚ) (d : Nat),
      (task_RS_Motor1_tick_f32 fc (.finite s) sh).motor_speed = .finite t ∧
      (task_RS_Motor1_tick_f32 fc (.finite s) sh).calls.map RunMotorCall.duty_cycle =
        [some d] ∧
      R32 t = .finite t ∧ 0 ≤ t ∧ t ≤ 255 ∧
      (sh.M1_duty_cycle = 0 → t = 0) ∧
      (sh.M1_duty_cycle ≠ 0 →
        min s (sh.M1_duty_cycle : ℚ) ≤ t ∧ t ≤ max s (sh.M1_duty_cycle : ℚ)) ∧
      (d : Int) = truncToZero t ∧ d ≤ 255) ∧
    (∃ (t : ℚ) (d : Nat),
      (task_RS_Motor2_tick_f32 fc (.finite s) sh).motor_speed = .finite t ∧
      (task_RS_Motor2_tick_f32 fc (.finite s) sh).calls.map RunMotorCall.duty_cycle =
        [some d] ∧
      R32 t = .finite t ∧ 0 ≤ t ∧ t ≤ 255 ∧
      (sh.M2_duty_cycle = 0 → t = 0) ∧
      (sh.M2_duty_cycle ≠ 0 →
        min s (sh.M2_duty_cycle : ℚ) ≤ t ∧ t ≤ max s (sh.M2_duty_cycle : ℚ)) ∧
      (d : Int) = truncToZero t ∧ d ≤ 255) ∧
    (∀ snaps : Nat → Shares,
      (∀ i, ∃ (st : Int) (sh0 : Shares),
        (snaps i).M1_duty_cycle =
          (sh0.exec (task_process_sensor_data_tick st sh0).2).M1_duty_cycle ∧
        (snaps i).M2_duty_cycle =
          (sh0.exec (task_process_sensor_data_tick st sh0).2).M2_duty_cycle) →
      ∀ n, ∃ (t1 t2 : ℚ) (d1 d2 : Nat),
        task_RS_Motor1_speed_f32 fc (.finite 0) snaps n = .finite t1 ∧
        0 ≤ t1 ∧ t1 ≤ 255 ∧
        (task_RS_Motor1_tick_f32 fc (task_RS_Motor1_speed_f32 fc (.finite 0) snaps n)
          (snaps n)).calls.map RunMotorCall.duty_cycle = [some d1] ∧
        d1 ≤ 255 ∧
        task_RS_Motor2_speed_f32 fc (.finite 0) snaps n = .finite t2 ∧
        0 ≤ t2 ∧ t2 ≤ 255 ∧
        (task_RS_Motor2_tick_f32 fc (task_RS_Motor2_speed_f32 fc (.finite 0) snaps n)
          (snaps n)).calls.map RunMotorCall.duty_cycle = [some d2] ∧
        d2 ≤ 255) := by
  have hrep := isRep_of_R32 hfloat
  refine ⟨?_, ?_, ?_⟩
  · obtain ⟨t, d, e, r, l0, l1, hz, hne, ht, hd⟩ :=
      task_RS_Motor1_tick_f32_range fc (sh) hrep hs0 hs1 h1.1 h1.2
    exact ⟨t, d, by rw [e], by rw [e]; rfl, R32_of_isRep r l0 (by linarith), l0, l1, hz,
      fun h => (hne h).2, ht, hd⟩
  · obtain ⟨t, d, e, r, l0, l1, hz, hne, ht, hd⟩ :=
      task_RS_Motor2_tick_f32_range fc (sh) hrep hs0 hs1 h2.1 h2.2
    exact ⟨t, d, by rw [e], by rw [e]; rfl, R32_of_isRep r l0 (by linarith), l0, l1, hz,
      fun h => (hne h).2, ht, hd⟩
  · intro snaps hsn n
    have hr1 : ∀ i, 0 ≤ (snaps i).M1_duty_cycle ∧ (snaps i).M1_duty_cycle ≤ 255 := by
      intro i
      obtain ⟨st, sh0, e1, _⟩ := hsn i
      have := (task_process_sensor_data_tick_commands st sh0).1
      rw [e1]
      omega
    have hr2 : ∀ i, 0 ≤ (snaps i).M2_duty_cycle ∧ (snaps i).M2_duty_cycle ≤ 255 := by
      intro i
      obtain ⟨st, sh0, _, e2⟩ := hsn i
      obtain ⟨a, b⟩ := task_process_sensor_data_tick_commands st sh0
      rw [e2, b]
      omega
    have z : IsRep 24 (-126) (0 : ℚ) := by simpa using isRep_int 0 (by norm_num)
    obtain ⟨t1, e1, r1, a0, a1⟩ :=
      task_RS_Motor1_speed_f32_range fc z le_rfl (by norm_num) snaps hr1 n
    obtain ⟨t2, e2, r2, b0, b1⟩ :=
      task_RS_Motor2_speed_f32_range fc z le_rfl (by norm_num) snaps hr2 n
    obtain ⟨_, d1, f1, _, _, _, _, _, _, g1⟩ :=
      task_RS_Motor1_tick_f32_range fc (snaps n) r1 a0 a1 (hr1 n).1 (hr1 n).2
    obtain ⟨_, d2, f2, _, _, _, _, _, _, g2⟩ :=
      task_RS_Motor2_tick_f32_range fc (snaps n) r2 b0 b1 (hr2 n).1 (hr2 n).2
    exact ⟨t1, t2, d1, d2, e1, a0, a1, by rw [e1, f1]; rfl, g1, e2, b0, b1,
      by rw [e2, f2]; rfl, g2⟩

theorem duty_range_invariant_float_witness :
    (R32 100 = .finite 100 ∧ (0 : ℚ) ≤ 100 ∧ (100 : ℚ) ≤ 255 ∧
      ((0 : Int) ≤ 255 ∧ (255 : Int) ≤ 255)) ∧
    (∃ (t : ℚ) (d : Nat),
      (task_RS_Motor1_tick_f32 .separate (.finite 100)
        ⟨.finite 100, .finite 100, 255, 255, false⟩).motor_speed = .finite t ∧
      (task_RS_Motor1_tick_f32 .separate (.finite 100)
        ⟨.finite 100, .finite 100, 255, 255, false⟩).calls.map RunMotorCall.duty_cycle =
        [some d] ∧
      R32 t = .finite t ∧ 0 ≤ t ∧ t ≤ 255 ∧
      ((255 : Int) = 0 → t = 0) ∧
      ((255 : Int) ≠ 0 → min 100 (((255 : Int)) : ℚ) ≤ t ∧ t ≤ max 100 (((255 : Int)) : ℚ)) ∧
      (d : Int) = truncToZero t ∧ d ≤ 255) :=
  have hf : R32 100 = .finite 100 :=
    R32_of_isRep ⟨100, 0, by norm_num, by norm_num, by norm_num⟩ (by norm_num) (by norm_num)
  have h := duty_range_invariant_float .separate 100
    ⟨.finite 100, .finite 100, 255, 255, false⟩ hf (by norm_num) (by norm_num)
    ⟨by decide, by decide⟩ ⟨by decide, by decide⟩
  ⟨⟨hf, by norm_num, by norm_num, by decide, by decide⟩, h.1⟩

/-! ## Constant command: reaching the commanded duty -/

/-- C16: the value put into `IR_distance` is not the conversion result
`5269.8/(r - 136.88)`.  The quotient is assigned to the `int` local
`ir_distance` before it is put into the share, so for every reading `r` in the
range of `int` the pass is defined and publishes the `double` quotient
truncated toward zero, an integer of magnitude at most 84320.  For the reading
400 the quotient is 704676968811671/35184372088832 (about 20.028) and the
share receives 20, while the pulse length 1000 is published with its fraction,
9008385/524288 (about 17.18); for the reading 137 the quotient is about
43914.999999998 and the share receives 43914. -/
theorem ir_distance_truncated :
    (∀ (pulse : Nat) (r : Int) (sh : Shares), -2147483648 ≤ r → r ≤ 2147483647 →
      ∃ q : ℚ, ir_conversion r = .finite q ∧ |q| ≤ 84320 ∧
        task_sensor_scan_tick pulse r sh =
          some { sh with
            US_distance := (div64 (R32 pulse) (R64 (582 / 10))).round R32,
            IR_distance := .finite (truncToZero q : ℚ) }) ∧
    ir_conversion 400 = .finite (704676968811671 / 35184372088832) ∧
    (20 : ℚ) < 704676968811671 / 35184372088832 ∧
    (704676968811671 / 35184372088832 : ℚ) < 21 ∧
    task_sensor_scan_tick 1000 400 ⟨.finite 0, .finite 0, 0, 0, false⟩ =
      some ⟨.finite (9008385 / 524288), .finite 20, 0, 0, false⟩ ∧
    ir_conversion 137 = .finite (6035631641722651 / 137438953472) ∧
    task_sensor_scan_tick 1000 137 ⟨.finite 0, .finite 0, 0, 0, false⟩ =
      some ⟨.finite (9008385 / 524288), .finite 43914, 0, 0, false⟩ := by
  refine ⟨fun pulse r sh h1 h2 => task_sensor_scan_tick_eq pulse r sh h1 h2, by decide!,
    by norm_num, by norm_num, by decide!, by decide!, by decide!⟩

end CollisionCar
